import Mathlib

/-!
Verification of the `emballoc` raw allocator (`src/raw_allocator/mod.rs`,
`src/raw_allocator/buffer.rs`) against its natural-language specification.

The buffer of `RawAllocator<N>` is modelled at the granularity of its
4-byte headers: a value of type `Buf` maps every byte offset to the
`Entry` whose 4-byte encoding starts there.  The operations `alloc` and
`free` only ever read and write the buffer through `Buffer::at` /
`Buffer::at_mut` at offsets produced by `entries()` or
`following_entry()`, so this map together with an explicit trace of the
accessed header offsets (each access spanning the 4 bytes
`[o, o + 4)`) is a faithful shallow embedding of the byte-level code.
Payload bytes are never touched by the code; the access traces make
this provable rather than built-in.

The file `src/raw_allocator/entry.rs` is not part of the sources; the
`Entry` type is therefore modelled from the specification (see its doc
comment).
-/

namespace Emballoc

/-- Modelled from the spec: the file `src/raw_allocator/entry.rs` is
missing from the sources (only `mod entry;` and the use sites remain).
Per spec section 4.1 an entry is a 4-byte header holding a
`(state, size)` pair with `state ∈ {Free, Used}`; the two observable
states of a record. -/
inductive State where
  | free
  | used
deriving DecidableEq

/-- Modelled from the spec: a header value encoding a `(state, size)`
pair (spec section 4.1, "Entry codec").  Equality is value equality on
the pair.  The raw 4-byte representation is not externally observable
and is not needed by any claim, so it is not modelled. -/
structure Entry where
  state : State
  size : Nat
deriving DecidableEq

/-- Modelled from the spec: the `Entry::free(size)` constructor. -/
def Entry.free (s : Nat) : Entry := ⟨State.free, s⟩

/-- Modelled from the spec: the `Entry::used(size)` constructor. -/
def Entry.used (s : Nat) : Entry := ⟨State.used, s⟩

/-- The heap buffer of `RawAllocator<N>`, viewed through `Buffer::at`:
`b o` is the `Entry` whose 4-byte encoding starts at byte offset `o`.
Offsets that do not currently hold a header carry junk values that the
code never reads (this is proved, not assumed: see the access-trace
theorems). -/
abbrev Buf := Nat → Entry

/-- A write through `Buffer::at_mut(o)` / `IndexMut`: the 4 bytes at
`[o, o + 4)` are replaced by the encoding of `e`. -/
def store (b : Buf) (o : Nat) (e : Entry) : Buf :=
  fun p => if p = o then e else b p

/-- `Buffer::new()` (buffer.rs): all bytes uninitialized (junk) except
the initial header `Entry::free(N - 4)` written at offset 0. -/
def bufNew (N : Nat) (junk : Buf) : Buf :=
  store junk 0 (Entry.free (N - 4))

/-- The offsets visited by `EntryIter::next` (buffer.rs lines 179-193):
starting from `o`, yield `o` while `o + 4 < N` and advance by
`4 + size`. -/
def entriesFrom (N : Nat) (b : Buf) (o : Nat) : List Nat :=
  if h : o + 4 < N then o :: entriesFrom N b (o + 4 + (b o).size) else []
termination_by N - o
decreasing_by simp_wf; omega

/-- `Buffer::entries()`: the iterator starts at offset 0. -/
def entries (N : Nat) (b : Buf) : List Nat := entriesFrom N b 0

/-- The complete record decomposition of the buffer: offsets of the
records that make up the concatenation, starting at 0 and stepping by
`4 + size`, while the 4-byte header itself still fits (`o + 4 ≤ N`).
This is the mathematical record list of spec section 3; note that it
differs from `entries` exactly at a final header at offset `N - 4`. -/
def walkFrom (N : Nat) (b : Buf) (o : Nat) : List Nat :=
  if h : o + 4 ≤ N then o :: walkFrom N b (o + 4 + (b o).size) else []
termination_by N - o
decreasing_by simp_wf; omega

/-- The record list of the buffer as `(offset, header)` pairs. -/
def records (N : Nat) (b : Buf) : List (Nat × Entry) :=
  (walkFrom N b 0).map (fun o => (o, b o))

/-- `Σᵢ (4 + sᵢ)` over the record decomposition. -/
def recordsSum (N : Nat) (b : Buf) : Nat :=
  ((walkFrom N b 0).map (fun o => 4 + (b o).size)).sum

/-- `Buffer::following_entry` (buffer.rs lines 143-150): the offset
right after the record at `o` (computed from the current header at
`o`), provided it is `< N`. -/
def followingEntry (N : Nat) (b : Buf) (o : Nat) : Option Nat :=
  let f := o + (b o).size + 4
  if f < N then some f else none

/-- Outcome of `RawAllocator::alloc` (mod.rs lines 53-74).
`allocated ptr len` is the returned payload slice `&mut buffer[ptr..ptr+len]`
(`Buffer::memory_of_mut`); `failed` is the `None` return; `panicked`
models the `usize` underflow of `entry_size - n - HEADER_SIZE` (debug
builds panic there, and the spec-modelled `Entry::free` rejects the
wrapped value in release builds). -/
inductive AllocOut where
  | allocated (ptr len : Nat)
  | failed
  | panicked
deriving DecidableEq

/-- Result of `alloc`: outcome, post-state of the buffer, and the trace
of header offsets read and written (each spanning bytes `[o, o+4)`).
The reads over-approximate: every offset the call may read is listed. -/
structure AllocRes where
  out : AllocOut
  buf : Buf
  reads : List Nat
  writes : List Nat

/-- Rust `Iterator::min_by_key` on the candidate list: the element
with minimal `size`, the first one winning ties (for `min_by_key` Rust
documents that "if several elements are equally minimum, the first
element is returned"). -/
def minByKey : List (Nat × Entry) → Option (Nat × Entry)
  | [] => none
  | x :: xs =>
    match minByKey xs with
    | none => some x
    | some m => if m.2.size < x.2.size then some m else some x

/-- Line 57 of mod.rs: round `n` up to the next multiple of
`size_of::<Entry>() = 4`. -/
def roundUp (n : Nat) : Nat := (n + 4 - 1) / 4 * 4

/-- The candidate list of the best-fit search in `alloc` (mod.rs lines
59-64): every entry visited by `entries()`, paired with its offset,
kept when its state is `Free` and its size is at least the rounded
request `n2`. -/
def allocCandidates (N : Nat) (b : Buf) (n2 : Nat) : List (Nat × Entry) :=
  (((entries N b).map (fun o => (o, b o))).filter
      (fun c => decide (c.2.state = State.free))).filter
    (fun c => decide (n2 ≤ c.2.size))

/-- The record chosen by the best-fit search (mod.rs line 65). -/
def allocChoice (N : Nat) (b : Buf) (n2 : Nat) : Option (Nat × Entry) :=
  minByKey (allocCandidates N b n2)

/-- `RawAllocator::alloc` (mod.rs lines 53-74): round the request up to
a multiple of 4, best-fit search over `entries()`, overwrite the chosen
header with `Entry::used(n2)`, then write the follower header
`Entry::free(s - n2 - 4)` if `following_entry` (on the just-updated
buffer) yields an offset.  The subtraction `entry_size - n -
HEADER_SIZE` is a `usize` subtraction: when `s < n2 + 4` it underflows,
which is the `panicked` outcome. -/
def alloc (N : Nat) (b : Buf) (n : Nat) : AllocRes :=
  let n2 := roundUp n
  let offs := entries N b
  match allocChoice N b n2 with
  | none => ⟨AllocOut.failed, b, offs, []⟩
  | some (o, _) =>
    let s := (b o).size
    let b1 := store b o (Entry.used n2)
    match followingEntry N b1 o with
    | some f =>
        if s < n2 + 4 then ⟨AllocOut.panicked, b1, offs ++ [o], [o]⟩
        else
          let b2 := store b1 f (Entry.free (s - n2 - 4))
          ⟨AllocOut.allocated (o + 4) ((b2 o).size), b2, offs ++ [o], [o, f]⟩
    | none => ⟨AllocOut.allocated (o + 4) ((b1 o).size), b1, offs ++ [o], [o]⟩

/-- `FreeError` (mod.rs lines 13-20). -/
inductive FreeError where
  | doubleFreeDetected
  | allocationNotFound
deriving DecidableEq

/-- Result of `free`: `result = none` is `Ok(())`; buffer post-state
and header access traces as in `AllocRes`. -/
structure FreeRes where
  result : Option FreeError
  buf : Buf
  reads : List Nat
  writes : List Nat

/-- The search predicate of `free` (mod.rs lines 100-108): does `ptr`
point into the payload `[o + 4, o + 4 + size)` of the entry at `o`?
The pointer is modelled as a byte offset from the buffer base. -/
def freePred (b : Buf) (ptr : Nat) (o : Nat) : Bool :=
  decide (o + 4 ≤ ptr) && decide (ptr < o + 4 + (b o).size)

/-- `RawAllocator::free` (mod.rs lines 96-122): find the first record
whose payload contains `ptr`; report `AllocationNotFound` /
`DoubleFreeDetected` without touching the buffer, otherwise absorb a
directly following `Free` record and overwrite the header with
`Entry::free(size + additional)`. -/
def free (N : Nat) (b : Buf) (ptr : Nat) : FreeRes :=
  let offs := entries N b
  match offs.find? (freePred b ptr) with
  | none => ⟨some FreeError.allocationNotFound, b, offs, []⟩
  | some o =>
    let e := b o
    if e.state = State.free then
      ⟨some FreeError.doubleFreeDetected, b, offs, []⟩
    else
      let fr := followingEntry N b o
      let additional :=
        match fr with
        | some f => if (b f).state = State.free then (b f).size + 4 else 0
        | none => 0
      ⟨none, store b o (Entry.free (e.size + additional)),
        offs ++ [o] ++ (match fr with | some f => [f] | none => []), [o]⟩

/-- The states of `RawAllocator<N>` reachable through the public
interface: a fresh allocator (`RawAllocator::new`, which asserts
`N ≥ 8` and `N % 4 = 0`, with arbitrary junk in the uninitialized
bytes) and everything produced from one by completing `alloc` and
`free` calls. -/
inductive Reachable (N : Nat) : Buf → Prop where
  | new (junk : Buf) (h8 : 8 ≤ N) (h4 : N % 4 = 0) : Reachable N (bufNew N junk)
  | allocStep (b : Buf) (n p l : Nat) :
      Reachable N b → (alloc N b n).out = AllocOut.allocated p l →
      Reachable N (alloc N b n).buf
  | freeStep (b : Buf) (ptr : Nat) :
      Reachable N b → Reachable N (free N b ptr).buf

/-- The buffer invariants of spec section 3 / section 8: the byte
region decomposes into records whose lengths `4 + sᵢ` sum to exactly
`N`, every size is a multiple of 4, and the capacity constraints of
`RawAllocator::new` hold. -/
structure Valid (N : Nat) (b : Buf) : Prop where
  hN : 8 ≤ N
  hmod : N % 4 = 0
  hsum : recordsSum N b = N
  halign : ∀ o ∈ walkFrom N b 0, (b o).size % 4 = 0

/-! ## Basic unfolding lemmas -/

theorem entriesFrom_step {N o : Nat} (b : Buf) (h : o + 4 < N) :
    entriesFrom N b o = o :: entriesFrom N b (o + 4 + (b o).size) := by
  rw [entriesFrom]; simp [h]

theorem entriesFrom_stop {N o : Nat} (b : Buf) (h : ¬o + 4 < N) :
    entriesFrom N b o = [] := by
  rw [entriesFrom]; simp [h]

theorem walkFrom_step {N o : Nat} (b : Buf) (h : o + 4 ≤ N) :
    walkFrom N b o = o :: walkFrom N b (o + 4 + (b o).size) := by
  rw [walkFrom]; simp [h]

theorem walkFrom_stop {N o : Nat} (b : Buf) (h : ¬o + 4 ≤ N) :
    walkFrom N b o = [] := by
  rw [walkFrom]; simp [h]

theorem store_same (b : Buf) (o : Nat) (e : Entry) : store b o e o = e := by
  simp [store]

theorem store_other (b : Buf) (o : Nat) (e : Entry) {p : Nat} (h : p ≠ o) :
    store b o e p = b p := by
  simp [store, h]

theorem roundUp_mod (n : Nat) : roundUp n % 4 = 0 := by
  simp only [roundUp]; omega

theorem le_roundUp (n : Nat) : n ≤ roundUp n := by
  simp only [roundUp]; omega

theorem roundUp_lt (n : Nat) : roundUp n < n + 4 := by
  simp only [roundUp]; omega

theorem roundUp_eq_zero_iff (n : Nat) : roundUp n = 0 ↔ n = 0 := by
  simp only [roundUp]; omega

/-! ## Structural lemmas about the record walk -/

theorem walkFrom_ge (N : Nat) (b : Buf) (o : Nat) :
    ∀ p ∈ walkFrom N b o, o ≤ p := by
  intro p hp
  by_cases h : o + 4 ≤ N
  · rw [walkFrom_step b h] at hp
    rcases List.mem_cons.mp hp with h1 | hp
    · omega
    · have := walkFrom_ge N b (o + 4 + (b o).size) p hp
      omega
  · rw [walkFrom_stop b h] at hp
    simp at hp
termination_by N - o
decreasing_by simp_wf; omega

/-- The walk from `o` depends only on the sizes stored at offsets
`≥ o`. -/
theorem walkFrom_frame_ge (N : Nat) (b b2 : Buf) (o : Nat)
    (hagree : ∀ q, o ≤ q → (b2 q).size = (b q).size) :
    walkFrom N b2 o = walkFrom N b o := by
  by_cases h : o + 4 ≤ N
  · rw [walkFrom_step b h, walkFrom_step b2 h, hagree o (Nat.le_refl o)]
    have htail := walkFrom_frame_ge N b b2 (o + 4 + (b o).size)
      (fun q hq => hagree q (by omega))
    rw [htail]
  · rw [walkFrom_stop b h, walkFrom_stop b2 h]
termination_by N - o
decreasing_by simp_wf; omega

/-- The `entries()` iteration is the record walk without a possible
final header at offset `N - 4`. -/
theorem entriesFrom_eq_filter (N : Nat) (b : Buf) (o : Nat) :
    entriesFrom N b o = (walkFrom N b o).filter (fun p => decide (p + 4 < N)) := by
  by_cases h : o + 4 < N
  · rw [entriesFrom_step b h, walkFrom_step b (by omega)]
    have := entriesFrom_eq_filter N b (o + 4 + (b o).size)
    simp [List.filter, h, this]
  · rw [entriesFrom_stop b h]
    by_cases h2 : o + 4 ≤ N
    · rw [walkFrom_step b h2]
      have hnext : ¬o + 4 + (b o).size + 4 ≤ N := by omega
      rw [walkFrom_stop b hnext]
      simp [List.filter, h]
    · rw [walkFrom_stop b h2]
      simp
termination_by N - o
decreasing_by simp_wf; omega

/-- `walkFrom N b a` reaches `p`: the walk starting at `a` passes
through offset `p`. -/
inductive Path (N : Nat) (b : Buf) : Nat → Nat → Prop where
  | refl (o : Nat) : Path N b o o
  | step (o p : Nat) (h : o + 4 ≤ N) :
      Path N b (o + 4 + (b o).size) p → Path N b o p

theorem Path.ge {N : Nat} {b : Buf} {o p : Nat} (h : Path N b o p) : o ≤ p := by
  induction h with
  | refl => exact Nat.le_refl _
  | step o p h _ ih => omega

theorem path_of_mem_walkFrom (N : Nat) (b : Buf) (o : Nat) :
    ∀ p ∈ walkFrom N b o, Path N b o p := by
  intro p hp
  by_cases h : o + 4 ≤ N
  · rw [walkFrom_step b h] at hp
    rcases List.mem_cons.mp hp with h1 | hp
    · subst h1; exact Path.refl p
    · exact Path.step o p h (path_of_mem_walkFrom N b (o + 4 + (b o).size) p hp)
  · rw [walkFrom_stop b h] at hp
    simp at hp
termination_by N - o
decreasing_by simp_wf; omega

theorem mem_walkFrom_of_path {N : Nat} {b : Buf} {o p : Nat}
    (h : Path N b o p) : p + 4 ≤ N → p ∈ walkFrom N b o := by
  induction h with
  | refl o =>
    intro hp
    rw [walkFrom_step b hp]
    exact List.mem_cons_self _ _
  | step o q h _ ih =>
    intro hp
    rw [walkFrom_step b h]
    exact List.mem_cons_of_mem _ (ih hp)

/-- Splitting the walk at a reached offset `p`, simultaneously for a
second buffer that agrees on all sizes below `p`: both walks consist of
the same prefix (of offsets `< p`) followed by their own walk from
`p`. -/
theorem path_walk_split {N : Nat} {b : Buf} (b2 : Buf) {p o : Nat}
    (h : Path N b o p) :
    (∀ q, q < p → (b2 q).size = (b q).size) →
    ∃ pre, walkFrom N b o = pre ++ walkFrom N b p ∧
      walkFrom N b2 o = pre ++ walkFrom N b2 p ∧
      ∀ q ∈ pre, q < p := by
  induction h with
  | refl o => exact fun _ => ⟨[], rfl, rfl, by simp⟩
  | step o q h hpath ih =>
    intro hagree
    obtain ⟨pre, hb, hb2, hlt⟩ := ih hagree
    have ho : o < q := by have := hpath.ge; omega
    refine ⟨o :: pre, ?_, ?_, ?_⟩
    · rw [walkFrom_step b h, hb]; simp
    · rw [walkFrom_step b2 h, hagree o ho, hb2]; simp
    · intro r hr
      rcases List.mem_cons.mp hr with h1 | hr
      · omega
      · exact hlt r hr

/-! ## Sums, bounds and disjointness along the walk -/

/-- Sum of the record lengths `4 + size` along the walk from `o`. -/
def sumFrom (N : Nat) (b : Buf) (o : Nat) : Nat :=
  ((walkFrom N b o).map (fun p => 4 + (b p).size)).sum

theorem recordsSum_eq_sumFrom (N : Nat) (b : Buf) : recordsSum N b = sumFrom N b 0 := rfl

theorem sumFrom_step {N o : Nat} (b : Buf) (h : o + 4 ≤ N) :
    sumFrom N b o = 4 + (b o).size + sumFrom N b (o + 4 + (b o).size) := by
  rw [sumFrom, walkFrom_step b h]
  simp [sumFrom]

theorem sumFrom_stop {N o : Nat} (b : Buf) (h : ¬o + 4 ≤ N) :
    sumFrom N b o = 0 := by
  rw [sumFrom, walkFrom_stop b h]
  simp

theorem path_sum {N : Nat} {b : Buf} {o p : Nat} (h : Path N b o p)
    (hc : o + sumFrom N b o = N) : p + sumFrom N b p = N := by
  induction h with
  | refl o => exact hc
  | step o q h hpath ih =>
    apply ih
    rw [sumFrom_step b h] at hc
    omega

theorem walkFrom_mem_bound (N : Nat) (b : Buf) (o : Nat) :
    ∀ p ∈ walkFrom N b o, p + 4 ≤ N := by
  intro p hp
  by_cases h : o + 4 ≤ N
  · rw [walkFrom_step b h] at hp
    rcases List.mem_cons.mp hp with h1 | hp
    · omega
    · exact walkFrom_mem_bound N b (o + 4 + (b o).size) p hp
  · rw [walkFrom_stop b h] at hp
    simp at hp
termination_by N - o
decreasing_by simp_wf; omega

/-- When the walk from `o` accounts for all the remaining bytes, every
record it visits lies entirely inside the buffer. -/
theorem walk_ends {N : Nat} {b : Buf} {o : Nat} (hc : o + sumFrom N b o = N) :
    ∀ p ∈ walkFrom N b o, p + 4 + (b p).size ≤ N := by
  intro p hp
  have hpath := path_of_mem_walkFrom N b o p hp
  have hps := path_sum hpath hc
  have hb := walkFrom_mem_bound N b o p hp
  rw [sumFrom_step b hb] at hps
  omega

/-- Two distinct visited offsets: one lies in the walk following the
other. -/
theorem walk_mem_tail_or (N : Nat) (b : Buf) (a : Nat) :
    ∀ p ∈ walkFrom N b a, ∀ q ∈ walkFrom N b a, p ≠ q →
    q ∈ walkFrom N b (p + 4 + (b p).size) ∨ p ∈ walkFrom N b (q + 4 + (b q).size) := by
  intro p hp q hq hne
  by_cases h : a + 4 ≤ N
  · rw [walkFrom_step b h] at hp hq
    rcases List.mem_cons.mp hp with h1 | hp <;> rcases List.mem_cons.mp hq with h2 | hq
    · omega
    · subst h1; exact Or.inl hq
    · subst h2; exact Or.inr hp
    · exact walk_mem_tail_or N b (a + 4 + (b a).size) p hp q hq hne
  · rw [walkFrom_stop b h] at hp
    simp at hp
termination_by N - a
decreasing_by simp_wf; omega

/-- The byte spans `[p, p + 4 + size)` of distinct records are
disjoint. -/
theorem walk_spans_disjoint {N : Nat} {b : Buf} {p q : Nat}
    (hp : p ∈ walkFrom N b 0) (hq : q ∈ walkFrom N b 0) (hne : p ≠ q) :
    p + 4 + (b p).size ≤ q ∨ q + 4 + (b q).size ≤ p := by
  rcases walk_mem_tail_or N b 0 p hp q hq hne with h | h
  · exact Or.inl (walkFrom_ge N b _ q h)
  · exact Or.inr (walkFrom_ge N b _ p h)

theorem walk_aligned (N : Nat) (b : Buf) (o : Nat) (ho : o % 4 = 0)
    (hs : ∀ p ∈ walkFrom N b o, (b p).size % 4 = 0) :
    ∀ p ∈ walkFrom N b o, p % 4 = 0 := by
  intro p hp
  by_cases h : o + 4 ≤ N
  · rw [walkFrom_step b h] at hp hs
    rcases List.mem_cons.mp hp with h1 | hp
    · omega
    · have hso : (b o).size % 4 = 0 := hs o (List.mem_cons_self _ _)
      exact walk_aligned N b (o + 4 + (b o).size) (by omega)
        (fun q hq => hs q (List.mem_cons_of_mem _ hq)) p hp
  · rw [walkFrom_stop b h] at hp
    simp at hp
termination_by N - o
decreasing_by simp_wf; omega

theorem walkFrom_pairwise (N : Nat) (b : Buf) (o : Nat) :
    List.Pairwise (· < ·) (walkFrom N b o) := by
  by_cases h : o + 4 ≤ N
  · rw [walkFrom_step b h]
    refine List.Pairwise.cons ?_ (walkFrom_pairwise N b (o + 4 + (b o).size))
    intro q hq
    have := walkFrom_ge N b (o + 4 + (b o).size) q hq
    omega
  · rw [walkFrom_stop b h]
    exact List.Pairwise.nil
termination_by N - o
decreasing_by simp_wf; omega

/-! ## Consequences of the `Valid` invariant -/

theorem Valid.complete {N : Nat} {b : Buf} (hv : Valid N b) :
    0 + sumFrom N b 0 = N := by
  have := hv.hsum
  rw [recordsSum_eq_sumFrom] at this
  omega

theorem Valid.ends {N : Nat} {b : Buf} (hv : Valid N b) :
    ∀ p ∈ walkFrom N b 0, p + 4 + (b p).size ≤ N :=
  walk_ends hv.complete

theorem Valid.offsets_aligned {N : Nat} {b : Buf} (hv : Valid N b) :
    ∀ p ∈ walkFrom N b 0, p % 4 = 0 :=
  walk_aligned N b 0 rfl hv.halign

/-- Membership in `entries` in terms of the record walk. -/
theorem mem_entries_iff {N : Nat} {b : Buf} {o : Nat} :
    o ∈ entries N b ↔ o ∈ walkFrom N b 0 ∧ o + 4 < N := by
  rw [entries, entriesFrom_eq_filter]
  simp [List.mem_filter]

/-! ## Best-fit selection -/

theorem minByKey_eq_none {l : List (Nat × Entry)} :
    minByKey l = none ↔ l = [] := by
  cases l with
  | nil => simp [minByKey]
  | cons x xs =>
    simp only [minByKey]
    cases h : minByKey xs <;> simp
    split <;> simp

/-- The chosen element is the first one of minimal size: everything
before it is strictly larger, everything after it at least as large. -/
theorem minByKey_spec {l : List (Nat × Entry)} {c : Nat × Entry}
    (h : minByKey l = some c) :
    ∃ l1 l2, l = l1 ++ c :: l2 ∧ (∀ d ∈ l1, c.2.size < d.2.size) ∧
      ∀ d ∈ l2, c.2.size ≤ d.2.size := by
  induction l generalizing c with
  | nil => simp [minByKey] at h
  | cons x xs ih =>
    simp only [minByKey] at h
    cases hm : minByKey xs with
    | none =>
      rw [hm] at h
      have hxs : xs = [] := minByKey_eq_none.mp hm
      subst hxs
      refine ⟨[], [], by simp_all, by simp, by simp⟩
    | some m =>
      rw [hm] at h
      obtain ⟨l1, l2, heq, hlt, hle⟩ := ih hm
      by_cases hcmp : m.2.size < x.2.size
      · simp only [hcmp, if_true] at h
        obtain rfl : m = c := by simpa using h
        refine ⟨x :: l1, l2, by simp [heq], ?_, hle⟩
        intro d hd
        rcases List.mem_cons.mp hd with rfl | hd
        · exact hcmp
        · exact hlt d hd
      · simp only [hcmp, if_false] at h
        obtain rfl : x = c := by simpa using h
        refine ⟨[], xs, by simp, by simp, ?_⟩
        intro d hd
        rw [heq] at hd
        rcases List.mem_append.mp hd with hd | hd
        · have := hlt d hd
          omega
        · rcases List.mem_cons.mp hd with rfl | hd
          · omega
          · have := hle d hd
            omega

theorem minByKey_mem {l : List (Nat × Entry)} {c : Nat × Entry}
    (h : minByKey l = some c) : c ∈ l := by
  obtain ⟨l1, l2, heq, -, -⟩ := minByKey_spec h
  rw [heq]
  simp

/-- Unpacking membership in the candidate list of `alloc`. -/
theorem allocCandidates_mem {N n2 : Nat} {b : Buf} {c : Nat × Entry}
    (h : c ∈ allocCandidates N b n2) :
    c.1 ∈ entries N b ∧ c.2 = b c.1 ∧ (b c.1).state = State.free ∧
      n2 ≤ (b c.1).size := by
  simp only [allocCandidates, List.mem_filter, List.mem_map] at h
  obtain ⟨⟨⟨o, ho, rfl⟩, h1⟩, h2⟩ := h
  simp at h1 h2 ⊢
  exact ⟨ho, h1, h2⟩

theorem allocCandidates_intro {N n2 : Nat} {b : Buf} {o : Nat}
    (ho : o ∈ entries N b) (hst : (b o).state = State.free)
    (hsz : n2 ≤ (b o).size) : (o, b o) ∈ allocCandidates N b n2 := by
  simp only [allocCandidates, List.mem_filter, List.mem_map]
  exact ⟨⟨⟨o, ho, rfl⟩, by simpa⟩, by simpa⟩

/-! ## Generic list facts used when relating `entries` to the records -/

/-- `find?` commutes with a filter that keeps everything the search
predicate could match. -/
theorem find?_filter_eq {α : Type} (l : List α) (pr q : α → Bool)
    (h : ∀ x ∈ l, pr x = true → q x = true) :
    (l.filter q).find? pr = l.find? pr := by
  induction l with
  | nil => simp
  | cons x xs ih =>
    have ih2 := ih (fun y hy => h y (List.mem_cons_of_mem _ hy))
    by_cases hpr : pr x = true
    · have hq := h x (List.mem_cons_self _ _) hpr
      rw [List.filter_cons_of_pos hq, List.find?_cons_of_pos _ hpr,
        List.find?_cons_of_pos _ hpr]
    · by_cases hq : q x = true
      · rw [List.filter_cons_of_pos hq, List.find?_cons_of_neg _ hpr,
          List.find?_cons_of_neg _ hpr, ih2]
      · rw [List.filter_cons_of_neg hq, List.find?_cons_of_neg _ hpr, ih2]

/-- Filtering with `pr` after a map absorbs an inner filter that keeps
everything that could pass `pr`. -/
theorem filter_map_filter_eq {α β : Type} (l : List α) (f : α → β)
    (q : α → Bool) (pr : β → Bool)
    (h : ∀ x ∈ l, pr (f x) = true → q x = true) :
    ((l.filter q).map f).filter pr = (l.map f).filter pr := by
  induction l with
  | nil => simp
  | cons x xs ih =>
    have ih2 := ih (fun y hy hp => h y (List.mem_cons_of_mem _ hy) hp)
    by_cases hq : q x = true
    · rw [List.filter_cons_of_pos hq, List.map_cons, List.map_cons]
      by_cases hpr : pr (f x) = true
      · rw [List.filter_cons_of_pos hpr, List.filter_cons_of_pos hpr, ih2]
      · rw [List.filter_cons_of_neg hpr, List.filter_cons_of_neg hpr, ih2]
    · have hpr : ¬pr (f x) = true := fun hp => hq (h x (List.mem_cons_self _ _) hp)
      rw [List.filter_cons_of_neg hq, List.map_cons,
        List.filter_cons_of_neg hpr, ih2]

/-! ## Branch shapes of `alloc` and `free` -/

theorem alloc_none_eq {N n : Nat} {b : Buf}
    (h : allocChoice N b (roundUp n) = none) :
    alloc N b n = ⟨AllocOut.failed, b, entries N b, []⟩ := by
  simp [alloc, h]

theorem alloc_split_eq {N n : Nat} {b : Buf} {o : Nat} {e : Entry}
    (h : allocChoice N b (roundUp n) = some (o, e))
    (hf : o + roundUp n + 4 < N) (hs : ¬(b o).size < roundUp n + 4) :
    alloc N b n = ⟨AllocOut.allocated (o + 4) (roundUp n),
      store (store b o (Entry.used (roundUp n))) (o + roundUp n + 4)
        (Entry.free ((b o).size - roundUp n - 4)),
      entries N b ++ [o], [o, o + roundUp n + 4]⟩ := by
  have hof : o ≠ o + roundUp n + 4 := by omega
  simp [alloc, h, followingEntry, store_same, hf, hs,
    store_other _ _ _ hof, Entry.used]

theorem alloc_panic_eq {N n : Nat} {b : Buf} {o : Nat} {e : Entry}
    (h : allocChoice N b (roundUp n) = some (o, e))
    (hf : o + roundUp n + 4 < N) (hs : (b o).size < roundUp n + 4) :
    alloc N b n = ⟨AllocOut.panicked, store b o (Entry.used (roundUp n)),
      entries N b ++ [o], [o]⟩ := by
  simp [alloc, h, followingEntry, store_same, hf, hs, Entry.used]

theorem alloc_tail_eq {N n : Nat} {b : Buf} {o : Nat} {e : Entry}
    (h : allocChoice N b (roundUp n) = some (o, e))
    (hf : ¬o + roundUp n + 4 < N) :
    alloc N b n = ⟨AllocOut.allocated (o + 4) (roundUp n),
      store b o (Entry.used (roundUp n)), entries N b ++ [o], [o]⟩ := by
  simp [alloc, h, followingEntry, store_same, hf, Entry.used]

theorem free_notFound_eq {N ptr : Nat} {b : Buf}
    (h : (entries N b).find? (freePred b ptr) = none) :
    free N b ptr = ⟨some FreeError.allocationNotFound, b, entries N b, []⟩ := by
  simp [free, h]

theorem free_double_eq {N ptr : Nat} {b : Buf} {o : Nat}
    (h : (entries N b).find? (freePred b ptr) = some o)
    (hst : (b o).state = State.free) :
    free N b ptr = ⟨some FreeError.doubleFreeDetected, b, entries N b, []⟩ := by
  simp [free, h, hst]

theorem free_merge_eq {N ptr : Nat} {b : Buf} {o f : Nat}
    (h : (entries N b).find? (freePred b ptr) = some o)
    (hst : ¬(b o).state = State.free)
    (hf : followingEntry N b o = some f) (hffree : (b f).state = State.free) :
    free N b ptr = ⟨none, store b o (Entry.free ((b o).size + ((b f).size + 4))),
      entries N b ++ [o] ++ [f], [o]⟩ := by
  simp [free, h, hst, hf, hffree]

theorem free_nomerge_eq {N ptr : Nat} {b : Buf} {o : Nat}
    (h : (entries N b).find? (freePred b ptr) = some o)
    (hst : ¬(b o).state = State.free)
    (hadd : (∀ f, followingEntry N b o = some f → ¬(b f).state = State.free)) :
    free N b ptr = ⟨none, store b o (Entry.free ((b o).size)),
      entries N b ++ [o] ++
        (match followingEntry N b o with | some f => [f] | none => []), [o]⟩ := by
  cases hfe : followingEntry N b o with
  | none => simp [free, h, hst, hfe]
  | some f =>
    have := hadd f hfe
    simp [free, h, hst, hfe, this]

/-! ## How the buffer mutations transform the record walk -/

theorem followingEntry_some_iff {N : Nat} {b : Buf} {o f : Nat} :
    followingEntry N b o = some f ↔
      f = o + (b o).size + 4 ∧ o + (b o).size + 4 < N := by
  unfold followingEntry
  by_cases h : o + (b o).size + 4 < N
  · simp only [h, if_true, Option.some.injEq, and_true]
    exact eq_comm
  · simp only [h, if_false]
    simp [h]

theorem followingEntry_none_iff {N : Nat} {b : Buf} {o : Nat} :
    followingEntry N b o = none ↔ ¬o + (b o).size + 4 < N := by
  simp only [followingEntry]
  split <;> simp_all

/-- Replacing a header by one of equal size does not change the record
walk at all. -/
theorem store_size_eq_walk (N : Nat) (b : Buf) (o : Nat) (e : Entry)
    (h : e.size = (b o).size) (a : Nat) :
    walkFrom N (store b o e) a = walkFrom N b a := by
  apply walkFrom_frame_ge
  intro q _
  by_cases hq : q = o
  · subst hq
    rw [store_same, h]
  · rw [store_other _ _ _ hq]

/-- Replacing a header by one of equal size preserves the buffer
invariant. -/
theorem store_size_eq_valid {N : Nat} {b : Buf} {o : Nat} {e : Entry}
    (hv : Valid N b) (h : e.size = (b o).size) :
    Valid N (store b o e) := by
  have hw := store_size_eq_walk N b o e h
  refine ⟨hv.hN, hv.hmod, ?_, ?_⟩
  · rw [recordsSum_eq_sumFrom, sumFrom, hw 0]
    have : ∀ p ∈ walkFrom N b 0,
        4 + (store b o e p).size = 4 + (b p).size := by
      intro p _
      by_cases hp : p = o
      · subst hp; rw [store_same, h]
      · rw [store_other _ _ _ hp]
    rw [List.map_congr_left this]
    exact hv.hsum
  · intro p hp
    rw [hw 0] at hp
    by_cases hpo : p = o
    · subst hpo
      rw [store_same, h]
      exact hv.halign p hp
    · rw [store_other _ _ _ hpo]
      exact hv.halign p hp

/-- The split performed by a successful non-exact `alloc`: the chosen
record at `o` becomes `Used n2`, a new free record appears at
`o + n2 + 4`, and everything else is untouched. -/
theorem alloc_split_state {N : Nat} {b : Buf} {o n2 : Nat}
    (hv : Valid N b) (ho : o ∈ entries N b) (hn2 : n2 % 4 = 0)
    (hs : n2 + 4 ≤ (b o).size) :
    ∃ pre,
      walkFrom N b 0 = pre ++ o :: walkFrom N b (o + 4 + (b o).size) ∧
      walkFrom N (store (store b o (Entry.used n2)) (o + n2 + 4)
          (Entry.free ((b o).size - n2 - 4))) 0 =
        pre ++ o :: (o + n2 + 4) :: walkFrom N b (o + 4 + (b o).size) ∧
      (∀ q ∈ pre, q < o) ∧
      Valid N (store (store b o (Entry.used n2)) (o + n2 + 4)
        (Entry.free ((b o).size - n2 - 4))) := by
  obtain ⟨howalk, ho4⟩ := mem_entries_iff.mp ho
  have hend := hv.ends o howalk
  have hoal := hv.offsets_aligned o howalk
  have hsal := hv.halign o howalk
  set s := (b o).size with hsdef
  set f := o + n2 + 4 with hfdef
  set b2 := store (store b o (Entry.used n2)) f (Entry.free (s - n2 - 4)) with hb2def
  have hof : o ≠ f := by omega
  have hb2o : b2 o = Entry.used n2 := by
    rw [hb2def, store_other _ _ _ hof, store_same]
  have hb2f : b2 f = Entry.free (s - n2 - 4) := by
    rw [hb2def, store_same]
  have hpath := path_of_mem_walkFrom N b 0 o howalk
  have hagree : ∀ q, q < o → (b2 q).size = (b q).size := by
    intro q hq
    rw [hb2def, store_other _ _ _ (by omega), store_other _ _ _ (by omega)]
  obtain ⟨pre, hb, hb2w, hlt⟩ := path_walk_split b2 hpath hagree
  have hstep1 : walkFrom N b o = o :: walkFrom N b (o + 4 + s) :=
    walkFrom_step b (by omega)
  have hb2osz : o + 4 + (b2 o).size = f := by rw [hb2o]; simp [Entry.used]; omega
  have hstep2 : walkFrom N b2 o = o :: walkFrom N b2 f := by
    rw [walkFrom_step b2 (by omega), hb2osz]
  have hf4 : f + 4 ≤ N := by
    have := hv.hmod
    omega
  have hb2fsz : f + 4 + (b2 f).size = o + 4 + s := by
    rw [hb2f]; simp [Entry.free]; omega
  have hstep3 : walkFrom N b2 f = f :: walkFrom N b2 (o + 4 + s) := by
    rw [walkFrom_step b2 hf4, hb2fsz]
  have htail : walkFrom N b2 (o + 4 + s) = walkFrom N b (o + 4 + s) := by
    apply walkFrom_frame_ge
    intro q hq
    rw [hb2def, store_other _ _ _ (by omega), store_other _ _ _ (by omega)]
  have hwalkb : walkFrom N b 0 = pre ++ o :: walkFrom N b (o + 4 + s) := by
    rw [hb, hstep1]
  have hwalkb2 : walkFrom N b2 0 =
      pre ++ o :: f :: walkFrom N b (o + 4 + s) := by
    rw [hb2w, hstep2, hstep3, htail]
  refine ⟨pre, hwalkb, hwalkb2, hlt, ?_⟩
  have hpresz : ∀ q ∈ pre, (b2 q).size = (b q).size := fun q hq => hagree q (hlt q hq)
  have htailsz : ∀ q ∈ walkFrom N b (o + 4 + s), (b2 q).size = (b q).size := by
    intro q hq
    have := walkFrom_ge N b (o + 4 + s) q hq
    rw [hb2def, store_other _ _ _ (by omega), store_other _ _ _ (by omega)]
  refine ⟨hv.hN, hv.hmod, ?_, ?_⟩
  · have hsumb := hv.hsum
    rw [recordsSum_eq_sumFrom, sumFrom, hwalkb] at hsumb
    rw [recordsSum_eq_sumFrom, sumFrom, hwalkb2]
    have hpre4 : pre.map (fun p => 4 + (b2 p).size) =
        pre.map (fun p => 4 + (b p).size) :=
      List.map_congr_left (fun q hq => by rw [hpresz q hq])
    have htail4 : (walkFrom N b (o + 4 + s)).map (fun p => 4 + (b2 p).size) =
        (walkFrom N b (o + 4 + s)).map (fun p => 4 + (b p).size) :=
      List.map_congr_left (fun q hq => by rw [htailsz q hq])
    rw [List.map_append, List.sum_append] at hsumb ⊢
    rw [List.map_cons, List.sum_cons] at hsumb
    rw [List.map_cons, List.sum_cons, List.map_cons, List.sum_cons]
    rw [hpre4, htail4, hb2o, hb2f]
    simp only [Entry.used, Entry.free] at hsumb ⊢
    omega
  · intro q hq
    rw [hwalkb2] at hq
    rcases List.mem_append.mp hq with hq | hq
    · rw [hpresz q hq]
      exact hv.halign q (by rw [hwalkb]; exact List.mem_append.mpr (Or.inl hq))
    · rcases List.mem_cons.mp hq with rfl | hq
      · rw [hb2o]; simpa [Entry.used] using hn2
      · rcases List.mem_cons.mp hq with rfl | hq
        · rw [hb2f]
          simp only [Entry.free]
          omega
        · rw [htailsz q hq]
          refine hv.halign q ?_
          rw [hwalkb]
          exact List.mem_append.mpr (Or.inr (List.mem_cons_of_mem _ hq))

/-- The right-coalescing merge performed by a successful `free` with a
free follower: the record at `o` and its follower at `f` fuse into one
free record, everything else untouched. -/
theorem free_merge_state {N : Nat} {b : Buf} {o f : Nat}
    (hv : Valid N b) (ho : o ∈ entries N b)
    (hf : followingEntry N b o = some f) :
    ∃ pre,
      walkFrom N b 0 = pre ++ o :: f :: walkFrom N b (f + 4 + (b f).size) ∧
      walkFrom N (store b o (Entry.free ((b o).size + ((b f).size + 4)))) 0 =
        pre ++ o :: walkFrom N b (f + 4 + (b f).size) ∧
      (∀ q ∈ pre, q < o) ∧
      Valid N (store b o (Entry.free ((b o).size + ((b f).size + 4)))) := by
  obtain ⟨hfeq, hflt⟩ := followingEntry_some_iff.mp hf
  obtain ⟨howalk, ho4⟩ := mem_entries_iff.mp ho
  have hoal := hv.offsets_aligned o howalk
  have hsal := hv.halign o howalk
  set s := (b o).size with hsdef
  set b3 := store b o (Entry.free (s + ((b f).size + 4))) with hb3def
  have hb3o : b3 o = Entry.free (s + ((b f).size + 4)) := by
    rw [hb3def, store_same]
  have hpath := path_of_mem_walkFrom N b 0 o howalk
  have hagree : ∀ q, q < o → (b3 q).size = (b q).size := by
    intro q hq
    rw [hb3def, store_other _ _ _ (by omega)]
  obtain ⟨pre, hb, hb3w, hlt⟩ := path_walk_split b3 hpath hagree
  have harg1 : o + 4 + s = f := by omega
  have hstep1 : walkFrom N b o = o :: walkFrom N b f := by
    rw [walkFrom_step b (by omega), harg1]
  have hf4 : f + 4 ≤ N := by
    have := hv.hmod
    omega
  have hstep2 : walkFrom N b f = f :: walkFrom N b (f + 4 + (b f).size) :=
    walkFrom_step b hf4
  have hfwalk : f ∈ walkFrom N b 0 := by
    rw [hb, hstep1, hstep2]
    exact List.mem_append.mpr (Or.inr (List.mem_cons_of_mem _ (List.mem_cons_self _ _)))
  have hfsal := hv.halign f hfwalk
  have hb3osz : o + 4 + (b3 o).size = f + 4 + (b f).size := by
    rw [hb3o]; simp [Entry.free]; omega
  have hstep3 : walkFrom N b3 o = o :: walkFrom N b3 (f + 4 + (b f).size) := by
    rw [walkFrom_step b3 (by omega), hb3osz]
  have htail : walkFrom N b3 (f + 4 + (b f).size) =
      walkFrom N b (f + 4 + (b f).size) := by
    apply walkFrom_frame_ge
    intro q hq
    rw [hb3def, store_other _ _ _ (by omega)]
  have hwalkb : walkFrom N b 0 =
      pre ++ o :: f :: walkFrom N b (f + 4 + (b f).size) := by
    rw [hb, hstep1, hstep2]
  have hwalkb3 : walkFrom N b3 0 =
      pre ++ o :: walkFrom N b (f + 4 + (b f).size) := by
    rw [hb3w, hstep3, htail]
  refine ⟨pre, hwalkb, hwalkb3, hlt, ?_⟩
  have hpresz : ∀ q ∈ pre, (b3 q).size = (b q).size := fun q hq => hagree q (hlt q hq)
  have htailsz : ∀ q ∈ walkFrom N b (f + 4 + (b f).size),
      (b3 q).size = (b q).size := by
    intro q hq
    have := walkFrom_ge N b (f + 4 + (b f).size) q hq
    rw [hb3def, store_other _ _ _ (by omega)]
  refine ⟨hv.hN, hv.hmod, ?_, ?_⟩
  · have hsumb := hv.hsum
    rw [recordsSum_eq_sumFrom, sumFrom, hwalkb] at hsumb
    rw [recordsSum_eq_sumFrom, sumFrom, hwalkb3]
    have hpre4 : pre.map (fun p => 4 + (b3 p).size) =
        pre.map (fun p => 4 + (b p).size) :=
      List.map_congr_left (fun q hq => by rw [hpresz q hq])
    have htail4 : (walkFrom N b (f + 4 + (b f).size)).map (fun p => 4 + (b3 p).size) =
        (walkFrom N b (f + 4 + (b f).size)).map (fun p => 4 + (b p).size) :=
      List.map_congr_left (fun q hq => by rw [htailsz q hq])
    rw [List.map_append, List.sum_append] at hsumb ⊢
    rw [List.map_cons, List.sum_cons, List.map_cons, List.sum_cons] at hsumb
    rw [List.map_cons, List.sum_cons]
    rw [hpre4, htail4, hb3o]
    simp only [Entry.free] at hsumb ⊢
    omega
  · intro q hq
    rw [hwalkb3] at hq
    rcases List.mem_append.mp hq with hq | hq
    · rw [hpresz q hq]
      exact hv.halign q (by rw [hwalkb]; exact List.mem_append.mpr (Or.inl hq))
    · rcases List.mem_cons.mp hq with rfl | hq
      · rw [hb3o]
        simp only [Entry.free]
        omega
      · rw [htailsz q hq]
        refine hv.halign q ?_
        rw [hwalkb]
        refine List.mem_append.mpr (Or.inr ?_)
        exact List.mem_cons_of_mem _ (List.mem_cons_of_mem _ hq)

/-- A fresh buffer consists of the single record `Free(N - 4)`. -/
theorem bufNew_walk {N : Nat} (junk : Buf) (h8 : 8 ≤ N) :
    walkFrom N (bufNew N junk) 0 = [0] := by
  have h0 : bufNew N junk 0 = Entry.free (N - 4) := store_same _ _ _
  rw [walkFrom_step (bufNew N junk) (by omega), h0]
  have harg : 0 + 4 + (Entry.free (N - 4)).size = N := by
    simp [Entry.free]; omega
  rw [harg, walkFrom_stop _ (by omega)]

theorem bufNew_valid {N : Nat} (junk : Buf) (h8 : 8 ≤ N) (h4 : N % 4 = 0) :
    Valid N (bufNew N junk) := by
  refine ⟨h8, h4, ?_, ?_⟩
  · rw [recordsSum_eq_sumFrom, sumFrom, bufNew_walk junk h8]
    simp [bufNew, store_same, Entry.free]
    omega
  · intro o ho
    rw [bufNew_walk junk h8] at ho
    simp at ho
    subst ho
    simp [bufNew, store_same, Entry.free]
    omega

/-! ## Preservation of the invariant by the public operations -/

theorem alloc_choice_facts {N n : Nat} {b : Buf} {o : Nat} {e : Entry}
    (h : allocChoice N b (roundUp n) = some (o, e)) :
    o ∈ entries N b ∧ e = b o ∧ (b o).state = State.free ∧
      roundUp n ≤ (b o).size := by
  have hmem := minByKey_mem h
  exact allocCandidates_mem hmem

theorem alloc_preserves_valid {N n : Nat} {b : Buf} (hv : Valid N b)
    (h : (alloc N b n).out ≠ AllocOut.panicked) :
    Valid N (alloc N b n).buf := by
  cases hch : allocChoice N b (roundUp n) with
  | none => rw [alloc_none_eq hch]; exact hv
  | some c =>
    obtain ⟨o, e⟩ := c
    obtain ⟨ho, -, hst, hsz⟩ := alloc_choice_facts hch
    obtain ⟨howalk, ho4⟩ := mem_entries_iff.mp ho
    have hend := hv.ends o howalk
    by_cases hcomp : (b o).size < roundUp n + 4
    · by_cases hroom : o + roundUp n + 4 < N
      · exfalso
        apply h
        rw [alloc_panic_eq hch hroom hcomp]
      · have hseq : (b o).size = roundUp n := by omega
        rw [alloc_tail_eq hch hroom]
        exact store_size_eq_valid hv (by simp [Entry.used, hseq])
    · have hroom : o + roundUp n + 4 < N := by omega
      rw [alloc_split_eq hch hroom hcomp]
      obtain ⟨pre, -, -, -, hval⟩ :=
        alloc_split_state hv ho (roundUp_mod n) (by omega)
      exact hval

theorem free_preserves_valid {N ptr : Nat} {b : Buf} (hv : Valid N b) :
    Valid N (free N b ptr).buf := by
  cases hfind : (entries N b).find? (freePred b ptr) with
  | none => rw [free_notFound_eq hfind]; exact hv
  | some o =>
    by_cases hst : (b o).state = State.free
    · rw [free_double_eq hfind hst]; exact hv
    · have ho : o ∈ entries N b := List.mem_of_find?_eq_some hfind
      cases hfe : followingEntry N b o with
      | none =>
        rw [free_nomerge_eq hfind hst (by intro g hg; rw [hfe] at hg; cases hg)]
        exact store_size_eq_valid hv (by simp [Entry.free])
      | some f =>
        by_cases hffree : (b f).state = State.free
        · rw [free_merge_eq hfind hst hfe hffree]
          obtain ⟨pre, -, -, -, hval⟩ := free_merge_state hv ho hfe
          exact hval
        · rw [free_nomerge_eq hfind hst
            (by intro g hg; rw [hfe] at hg; cases hg; exact hffree)]
          exact store_size_eq_valid hv (by simp [Entry.free])

theorem reachable_valid {N : Nat} {b : Buf} (h : Reachable N b) : Valid N b := by
  induction h with
  | new junk h8 h4 => exact bufNew_valid junk h8 h4
  | allocStep b n p l hr hout ih =>
    exact alloc_preserves_valid ih (by rw [hout]; simp)
  | freeStep b ptr hr ih => exact free_preserves_valid ih

/-! ## Payload framing: the operations only touch header bytes -/

/-- Byte address `a` lies in the payload of some record that is `Used`
in the buffer `b`. -/
def inUsedPayload (N : Nat) (b : Buf) (a : Nat) : Prop :=
  ∃ q ∈ walkFrom N b 0, (b q).state = State.used ∧
    q + 4 ≤ a ∧ a < q + 4 + (b q).size

/-- The four header bytes of any record never lie in the payload of a
`Used` record. -/
theorem header_bytes_not_used_payload {N : Nat} {b : Buf} {p : Nat}
    (hp : p ∈ walkFrom N b 0) :
    ∀ a, p ≤ a → a < p + 4 → ¬inUsedPayload N b a := by
  intro a ha1 ha2 ⟨q, hq, hqs, hqa1, hqa2⟩
  by_cases hpq : p = q
  · subst hpq
    omega
  · rcases walk_spans_disjoint hp hq hpq with h | h <;> omega

/-- Bytes inside the payload of a `Free` record never lie in the
payload of a `Used` record. -/
theorem free_payload_not_used_payload {N : Nat} {b : Buf} {o : Nat}
    (ho : o ∈ walkFrom N b 0)
    (hfree : (b o).state = State.free) :
    ∀ a, o + 4 ≤ a → a < o + 4 + (b o).size → ¬inUsedPayload N b a := by
  intro a ha1 ha2 ⟨q, hq, hqs, hqa1, hqa2⟩
  by_cases hoq : o = q
  · subst hoq
    rw [hfree] at hqs
    cases hqs
  · rcases walk_spans_disjoint ho hq hoq with h | h <;> omega

/-! ## The operations read the buffer only at the traced offsets -/

theorem find?_congr {α : Type} (l : List α) (p q : α → Bool)
    (h : ∀ x ∈ l, p x = q x) : l.find? p = l.find? q := by
  induction l with
  | nil => rfl
  | cons x xs ih =>
    have hx := h x (List.mem_cons_self _ _)
    have ih2 := ih (fun y hy => h y (List.mem_cons_of_mem _ hy))
    by_cases hp : p x = true
    · rw [List.find?_cons_of_pos _ hp, List.find?_cons_of_pos _ (hx ▸ hp)]
    · rw [List.find?_cons_of_neg _ hp, List.find?_cons_of_neg _ (hx ▸ hp), ih2]

theorem entriesFrom_frame (N : Nat) (b b2 : Buf) (o : Nat)
    (h : ∀ q ∈ entriesFrom N b o, b2 q = b q) :
    entriesFrom N b2 o = entriesFrom N b o := by
  by_cases hc : o + 4 < N
  · rw [entriesFrom_step b hc, entriesFrom_step b2 hc]
    have ho : b2 o = b o := h o (by rw [entriesFrom_step b hc]; exact List.mem_cons_self _ _)
    rw [ho]
    have := entriesFrom_frame N b b2 (o + 4 + (b o).size)
      (fun q hq => h q (by rw [entriesFrom_step b hc]; exact List.mem_cons_of_mem _ hq))
    rw [this]
  · rw [entriesFrom_stop b hc, entriesFrom_stop b2 hc]
termination_by N - o
decreasing_by simp_wf; omega

theorem entries_frame {N : Nat} {b b2 : Buf}
    (h : ∀ q ∈ entries N b, b2 q = b q) : entries N b2 = entries N b :=
  entriesFrom_frame N b b2 0 h

theorem allocCandidates_frame {N n2 : Nat} {b b2 : Buf}
    (h : ∀ q ∈ entries N b, b2 q = b q) :
    allocCandidates N b2 n2 = allocCandidates N b n2 := by
  unfold allocCandidates
  rw [entries_frame h]
  rw [List.map_congr_left (fun q hq => by rw [h q hq])]

/-- `alloc` is determined by the buffer cells in its read trace: its
outcome and its writes do not depend on any other byte of the
buffer. -/
theorem alloc_reads_det {N n : Nat} {b : Buf} (b2 : Buf)
    (h : ∀ p ∈ (alloc N b n).reads, b2 p = b p) :
    (alloc N b2 n).out = (alloc N b n).out ∧
      (alloc N b2 n).writes = (alloc N b n).writes := by
  have hreads : ∀ p ∈ entries N b, b2 p = b p := by
    intro p hp
    apply h
    cases hch : allocChoice N b (roundUp n) with
    | none => rw [alloc_none_eq hch]; exact hp
    | some c =>
      obtain ⟨o, e⟩ := c
      by_cases hcomp : (b o).size < roundUp n + 4
      · by_cases hroom : o + roundUp n + 4 < N
        · rw [alloc_panic_eq hch hroom hcomp]
          exact List.mem_append.mpr (Or.inl hp)
        · rw [alloc_tail_eq hch hroom]
          exact List.mem_append.mpr (Or.inl hp)
      · by_cases hroom : o + roundUp n + 4 < N
        · rw [alloc_split_eq hch hroom hcomp]
          exact List.mem_append.mpr (Or.inl hp)
        · rw [alloc_tail_eq hch hroom]
          exact List.mem_append.mpr (Or.inl hp)
  have hch2 : allocChoice N b2 (roundUp n) = allocChoice N b (roundUp n) := by
    unfold allocChoice
    rw [allocCandidates_frame hreads]
  cases hch : allocChoice N b (roundUp n) with
  | none =>
    rw [alloc_none_eq hch, alloc_none_eq (hch ▸ hch2)]
    simp [entries_frame hreads]
  | some c =>
    obtain ⟨o, e⟩ := c
    have hchb2 : allocChoice N b2 (roundUp n) = some (o, e) := by rw [hch2, hch]
    obtain ⟨ho, -, -, -⟩ := alloc_choice_facts hch
    have hbo : b2 o = b o := hreads o ho
    by_cases hcomp : (b o).size < roundUp n + 4
    · by_cases hroom : o + roundUp n + 4 < N
      · rw [alloc_panic_eq hch hroom hcomp,
          alloc_panic_eq hchb2 hroom (by rw [hbo]; exact hcomp)]
        exact ⟨rfl, rfl⟩
      · rw [alloc_tail_eq hch hroom, alloc_tail_eq hchb2 hroom]
        exact ⟨rfl, rfl⟩
    · by_cases hroom : o + roundUp n + 4 < N
      · rw [alloc_split_eq hch hroom hcomp,
          alloc_split_eq hchb2 hroom (by rw [hbo]; exact hcomp)]
        exact ⟨rfl, rfl⟩
      · rw [alloc_tail_eq hch hroom, alloc_tail_eq hchb2 hroom]
        exact ⟨rfl, rfl⟩

/-- `free` is determined by the buffer cells in its read trace. -/
theorem free_reads_det {N ptr : Nat} {b : Buf} (b2 : Buf)
    (h : ∀ p ∈ (free N b ptr).reads, b2 p = b p) :
    (free N b2 ptr).result = (free N b ptr).result ∧
      (free N b2 ptr).writes = (free N b ptr).writes := by
  have hreads : ∀ p ∈ entries N b, b2 p = b p := by
    intro p hp
    apply h
    cases hfind : (entries N b).find? (freePred b ptr) with
    | none => rw [free_notFound_eq hfind]; exact hp
    | some o =>
      by_cases hst : (b o).state = State.free
      · rw [free_double_eq hfind hst]; exact hp
      · cases hfe : followingEntry N b o with
        | none =>
          rw [free_nomerge_eq hfind hst (by intro g hg; rw [hfe] at hg; cases hg)]
          simp [hfe]
          exact Or.inl hp
        | some f =>
          by_cases hffree : (b f).state = State.free
          · rw [free_merge_eq hfind hst hfe hffree]
            exact List.mem_append.mpr (Or.inl (List.mem_append.mpr (Or.inl hp)))
          · rw [free_nomerge_eq hfind hst
              (by intro g hg; rw [hfe] at hg; cases hg; exact hffree)]
            simp [hfe]
            exact Or.inl hp
  have hE : entries N b2 = entries N b := entries_frame hreads
  have hfind2 : (entries N b2).find? (freePred b2 ptr) =
      (entries N b).find? (freePred b ptr) := by
    rw [hE]
    apply find?_congr
    intro q hq
    unfold freePred
    rw [hreads q hq]
  cases hfind : (entries N b).find? (freePred b ptr) with
  | none =>
    rw [free_notFound_eq hfind, free_notFound_eq (by rw [hfind2, hfind])]
    exact ⟨rfl, rfl⟩
  | some o =>
    have ho : o ∈ entries N b := List.mem_of_find?_eq_some hfind
    have hbo : b2 o = b o := hreads o ho
    have hfindb2 : (entries N b2).find? (freePred b2 ptr) = some o := by
      rw [hfind2, hfind]
    by_cases hst : (b o).state = State.free
    · rw [free_double_eq hfind hst, free_double_eq hfindb2 (by rw [hbo]; exact hst)]
      exact ⟨rfl, rfl⟩
    · have hst2 : ¬(b2 o).state = State.free := by rw [hbo]; exact hst
      have hfe2 : followingEntry N b2 o = followingEntry N b o := by
        unfold followingEntry
        rw [hbo]
      cases hfe : followingEntry N b o with
      | none =>
        rw [free_nomerge_eq hfind hst (by intro g hg; rw [hfe] at hg; cases hg),
          free_nomerge_eq hfindb2 hst2 (by intro g hg; rw [hfe2, hfe] at hg; cases hg)]
        exact ⟨rfl, rfl⟩
      | some f =>
        have hfread : b2 f = b f := by
          apply h
          by_cases hffree : (b f).state = State.free
          · rw [free_merge_eq hfind hst hfe hffree]
            simp
          · rw [free_nomerge_eq hfind hst
              (by intro g hg; rw [hfe] at hg; cases hg; exact hffree)]
            simp [hfe]
        by_cases hffree : (b f).state = State.free
        · rw [free_merge_eq hfind hst hfe hffree,
            free_merge_eq hfindb2 hst2 (by rw [hfe2]; exact hfe)
              (by rw [hfread]; exact hffree)]
          exact ⟨rfl, rfl⟩
        · rw [free_nomerge_eq hfind hst
            (by intro g hg; rw [hfe] at hg; cases hg; exact hffree),
            free_nomerge_eq hfindb2 hst2
              (by intro g hg; rw [hfe2, hfe] at hg; cases hg;
                  rw [hfread]; exact hffree)]
          exact ⟨rfl, rfl⟩

theorem Entry.eta_free {e : Entry} (h : e.state = State.free) :
    e = Entry.free e.size := by
  cases e
  simp only [Entry.free]
  simp at h
  rw [h]

/-- Concatenation of walk paths. -/
theorem Path.trans {N : Nat} {b : Buf} {a c d : Nat}
    (h1 : Path N b a c) (h2 : Path N b c d) : Path N b a d := by
  induction h1 with
  | refl => exact h2
  | step o q h hpp ih => exact Path.step o d h (ih h2)

/-- Complete case analysis of a successful `alloc`. -/
theorem alloc_allocated_cases {N n p l : Nat} {b : Buf} (hv : Valid N b)
    (h : (alloc N b n).out = AllocOut.allocated p l) :
    ∃ o e, allocChoice N b (roundUp n) = some (o, e) ∧ p = o + 4 ∧
      l = roundUp n ∧ o ∈ entries N b ∧ (b o).state = State.free ∧
      ((roundUp n + 4 ≤ (b o).size ∧ o + roundUp n + 4 < N ∧
        alloc N b n = ⟨AllocOut.allocated (o + 4) (roundUp n),
          store (store b o (Entry.used (roundUp n))) (o + roundUp n + 4)
            (Entry.free ((b o).size - roundUp n - 4)),
          entries N b ++ [o], [o, o + roundUp n + 4]⟩) ∨
       ((b o).size = roundUp n ∧ ¬o + roundUp n + 4 < N ∧
        alloc N b n = ⟨AllocOut.allocated (o + 4) (roundUp n),
          store b o (Entry.used (roundUp n)), entries N b ++ [o], [o]⟩)) := by
  cases hch : allocChoice N b (roundUp n) with
  | none =>
    rw [alloc_none_eq hch] at h
    cases h
  | some c =>
    obtain ⟨o, e⟩ := c
    obtain ⟨ho, -, hst, hsz⟩ := alloc_choice_facts hch
    obtain ⟨howalk, ho4⟩ := mem_entries_iff.mp ho
    have hend := hv.ends o howalk
    by_cases hcomp : (b o).size < roundUp n + 4
    · by_cases hroom : o + roundUp n + 4 < N
      · rw [alloc_panic_eq hch hroom hcomp] at h
        cases h
      · have heq := alloc_tail_eq hch hroom
        rw [heq] at h
        simp only [AllocOut.allocated.injEq] at h
        obtain ⟨rfl, rfl⟩ := h
        exact ⟨o, e, rfl, rfl, rfl, ho, hst,
          Or.inr ⟨by omega, hroom, heq⟩⟩
    · have hroom : o + roundUp n + 4 < N := by omega
      have heq := alloc_split_eq hch hroom hcomp
      rw [heq] at h
      simp only [AllocOut.allocated.injEq] at h
      obtain ⟨rfl, rfl⟩ := h
      exact ⟨o, e, rfl, rfl, rfl, ho, hst,
        Or.inl ⟨by omega, hroom, heq⟩⟩

/-- Searching `entries()` for the payload-start pointer of a record of
nonzero size finds exactly that record. -/
theorem find?_entries_self {N o : Nat} {bb : Buf} (hvb : Valid N bb)
    (ho : o ∈ walkFrom N bb 0) (hsz : 4 ≤ (bb o).size) :
    (entries N bb).find? (freePred bb (o + 4)) = some o := by
  have hfilter : (entries N bb).find? (freePred bb (o + 4)) =
      (walkFrom N bb 0).find? (freePred bb (o + 4)) := by
    rw [entries, entriesFrom_eq_filter]
    apply find?_filter_eq
    intro q hq hpred
    have hqend := hvb.ends q hq
    simp only [freePred, Bool.and_eq_true, decide_eq_true_eq] at hpred
    simp only [decide_eq_true_eq]
    omega
  rw [hfilter]
  obtain ⟨pre, hsplit, -, hlt⟩ :=
    path_walk_split bb (path_of_mem_walkFrom N bb 0 o ho) (fun q _ => rfl)
  rw [hsplit, List.find?_append]
  have hprenone : pre.find? (freePred bb (o + 4)) = none := by
    rw [List.find?_eq_none]
    intro q hq
    have hqo : q < o := hlt q hq
    have hqwalk : q ∈ walkFrom N bb 0 := by
      rw [hsplit]; exact List.mem_append.mpr (Or.inl hq)
    have hdisj := walk_spans_disjoint hqwalk ho (by omega)
    simp only [freePred, Bool.and_eq_true, decide_eq_true_eq, not_and]
    intro h1
    omega
  rw [hprenone]
  rw [walkFrom_step bb (walkFrom_mem_bound N bb 0 o ho)]
  rw [List.find?_cons_of_pos]
  · rfl
  · simp only [freePred, Bool.and_eq_true, decide_eq_true_eq]
    omega

/-- The follower record inspected by `free` is itself a record of the
buffer. -/
theorem followingEntry_mem_walk {N o f : Nat} {b : Buf} (hv : Valid N b)
    (howalk : o ∈ walkFrom N b 0) (hf : followingEntry N b o = some f) :
    f ∈ walkFrom N b 0 := by
  obtain ⟨hfeq, hflt⟩ := followingEntry_some_iff.mp hf
  have hoal := hv.offsets_aligned o howalk
  have hsal := hv.halign o howalk
  have hmod := hv.hmod
  have harg : o + 4 + (b o).size = f := by omega
  have hpath : Path N b 0 f :=
    Path.trans (path_of_mem_walkFrom N b 0 o howalk)
      (Path.step o f (walkFrom_mem_bound N b 0 o howalk)
        (by rw [harg]; exact Path.refl f))
  exact mem_walkFrom_of_path hpath (by omega)

/-- Every byte that `alloc` reads or writes lies in a header of the
pre-state buffer or (the follower write) inside the chosen free
payload of the record; none lies in the payload of a `Used` record. -/
theorem alloc_accesses_not_used_payload {N n : Nat} {b : Buf} (hv : Valid N b) :
    ∀ p ∈ (alloc N b n).reads ++ (alloc N b n).writes,
    ∀ a, p ≤ a → a < p + 4 → ¬inUsedPayload N b a := by
  have hent : ∀ p ∈ entries N b, ∀ a, p ≤ a → a < p + 4 → ¬inUsedPayload N b a := by
    intro p hp
    exact header_bytes_not_used_payload (mem_entries_iff.mp hp).1
  cases hch : allocChoice N b (roundUp n) with
  | none =>
    rw [alloc_none_eq hch]
    intro p hp
    simp only [List.append_nil] at hp
    exact hent p hp
  | some c =>
    obtain ⟨o, e⟩ := c
    obtain ⟨ho, -, hst, hsz⟩ := alloc_choice_facts hch
    obtain ⟨howalk, ho4⟩ := mem_entries_iff.mp ho
    have hend := hv.ends o howalk
    have hoacc := hent o ho
    by_cases hcomp : (b o).size < roundUp n + 4
    · by_cases hroom : o + roundUp n + 4 < N
      · rw [alloc_panic_eq hch hroom hcomp]
        intro p hp
        simp only [List.mem_append, List.mem_singleton] at hp
        rcases hp with (hp | rfl) | rfl
        · exact hent p hp
        · exact hoacc
        · exact hoacc
      · rw [alloc_tail_eq hch hroom]
        intro p hp
        simp only [List.mem_append, List.mem_singleton] at hp
        rcases hp with (hp | rfl) | rfl
        · exact hent p hp
        · exact hoacc
        · exact hoacc
    · have hroom : o + roundUp n + 4 < N := by omega
      rw [alloc_split_eq hch hroom hcomp]
      intro p hp
      simp only [List.mem_append, List.mem_singleton, List.mem_cons,
        List.not_mem_nil, or_false] at hp
      rcases hp with (hp | rfl) | rfl | rfl
      · exact hent p hp
      · exact hoacc
      · exact hoacc
      · intro a ha1 ha2
        exact free_payload_not_used_payload howalk hst a (by omega) (by omega)

/-- Every byte that `free` reads or writes lies in a header of a record
of the buffer; none lies in the payload of a `Used` record. -/
theorem free_accesses_not_used_payload {N ptr : Nat} {b : Buf} (hv : Valid N b) :
    ∀ p ∈ (free N b ptr).reads ++ (free N b ptr).writes,
    ∀ a, p ≤ a → a < p + 4 → ¬inUsedPayload N b a := by
  have hent : ∀ p ∈ entries N b, ∀ a, p ≤ a → a < p + 4 → ¬inUsedPayload N b a := by
    intro p hp
    exact header_bytes_not_used_payload (mem_entries_iff.mp hp).1
  cases hfind : (entries N b).find? (freePred b ptr) with
  | none =>
    rw [free_notFound_eq hfind]
    intro p hp
    simp only [List.append_nil] at hp
    exact hent p hp
  | some o =>
    have ho : o ∈ entries N b := List.mem_of_find?_eq_some hfind
    obtain ⟨howalk, ho4⟩ := mem_entries_iff.mp ho
    have hoacc := hent o ho
    by_cases hst : (b o).state = State.free
    · rw [free_double_eq hfind hst]
      intro p hp
      simp only [List.append_nil] at hp
      exact hent p hp
    · cases hfe : followingEntry N b o with
      | none =>
        rw [free_nomerge_eq hfind hst (by intro g hg; rw [hfe] at hg; cases hg)]
        intro p hp
        rw [hfe] at hp
        simp only [List.mem_append, List.mem_singleton, List.append_nil] at hp
        rcases hp with (hp | rfl) | rfl
        · exact hent p hp
        · exact hoacc
        · exact hoacc
      | some f =>
        have hfwalk := followingEntry_mem_walk hv howalk hfe
        have hfacc := header_bytes_not_used_payload hfwalk
        by_cases hffree : (b f).state = State.free
        · rw [free_merge_eq hfind hst hfe hffree]
          intro p hp
          simp only [List.mem_append, List.mem_singleton] at hp
          rcases hp with ((hp | rfl) | rfl) | rfl
          · exact hent p hp
          · exact hoacc
          · exact hfacc
          · exact hoacc
        · rw [free_nomerge_eq hfind hst
            (by intro g hg; rw [hfe] at hg; cases hg; exact hffree)]
          intro p hp
          rw [hfe] at hp
          simp only [List.mem_append, List.mem_singleton] at hp
          rcases hp with ((hp | rfl) | rfl) | rfl
          · exact hent p hp
          · exact hoacc
          · exact hfacc
          · exact hoacc

/-- Freeing the pointer returned by a successful `alloc` of nonzero
rounded size succeeds and restores the record list exactly. -/
theorem alloc_free_roundtrip {N n p l : Nat} {b : Buf} (hv : Valid N b)
    (hn : 4 ≤ roundUp n) (h : (alloc N b n).out = AllocOut.allocated p l) :
    (free N (alloc N b n).buf p).result = none ∧
      records N (free N (alloc N b n).buf p).buf = records N b := by
  obtain ⟨o, e, hch, rfl, rfl, ho, hst, hcase⟩ := alloc_allocated_cases hv h
  obtain ⟨howalk, ho4⟩ := mem_entries_iff.mp ho
  have hboeta : b o = Entry.free ((b o).size) := Entry.eta_free hst
  rcases hcase with ⟨hsz, hroom, heq⟩ | ⟨hsz, hroom, heq⟩
  · -- split case: the follower written by `alloc` is absorbed back
    obtain ⟨pre, hwalkb, hwalkb2, hlt, hvb2⟩ :=
      alloc_split_state hv ho (roundUp_mod n) hsz
    set n2 := roundUp n with hn2def
    set s := (b o).size with hsdef
    set f := o + n2 + 4 with hfdef
    set b2 := store (store b o (Entry.used n2)) f (Entry.free (s - n2 - 4))
      with hb2def
    have hbuf : (alloc N b n).buf = b2 := by rw [heq]
    have hb2o : b2 o = Entry.used n2 := by
      rw [hb2def, store_other _ _ _ (by omega), store_same]
    have hb2f : b2 f = Entry.free (s - n2 - 4) := by rw [hb2def, store_same]
    have howalk2 : o ∈ walkFrom N b2 0 := by
      rw [hwalkb2]
      exact List.mem_append.mpr (Or.inr (List.mem_cons_self _ _))
    have hfind := find?_entries_self hvb2 howalk2
      (by rw [hb2o]; simpa [Entry.used] using hn)
    have hst2 : ¬(b2 o).state = State.free := by
      rw [hb2o]; simp [Entry.used]
    have hfe : followingEntry N b2 o = some f := by
      apply followingEntry_some_iff.mpr
      rw [hb2o]
      simp [Entry.used]
      omega
    have hffree : (b2 f).state = State.free := by rw [hb2f]; rfl
    have hfreeeq := free_merge_eq hfind hst2 hfe hffree
    set e3 := Entry.free ((b2 o).size + ((b2 f).size + 4)) with he3def
    have he3sz : e3.size = s := by
      rw [he3def, hb2o, hb2f]
      simp [Entry.free, Entry.used]
      omega
    set b3 := store b2 o e3 with hb3def
    have hres3 : (free N b2 (o + 4)).result = none := by rw [hfreeeq]
    have hbuf3 : (free N b2 (o + 4)).buf = b3 := by rw [hfreeeq]
    rw [hbuf]
    refine ⟨hres3, ?_⟩
    rw [hbuf3]
    have hagree3 : ∀ q, q ≠ o → q ≠ f → b3 q = b q := by
      intro q hq1 hq2
      rw [hb3def, store_other _ _ _ hq1, hb2def,
        store_other _ _ _ hq2, store_other _ _ _ hq1]
    obtain ⟨pre2, hw1, hw2, hlt2⟩ :=
      path_walk_split b3 (path_of_mem_walkFrom N b 0 o howalk)
        (fun q hq => by rw [hagree3 q (by omega) (by omega)])
    have hstep1 : walkFrom N b o = o :: walkFrom N b (o + 4 + s) :=
      walkFrom_step b (by omega)
    have hb3o : b3 o = e3 := by rw [hb3def, store_same]
    have hb3osz : o + 4 + (b3 o).size = o + 4 + s := by rw [hb3o, he3sz]
    have hstep2 : walkFrom N b3 o = o :: walkFrom N b3 (o + 4 + s) := by
      rw [walkFrom_step b3 (by omega), hb3osz]
    have htail3 : walkFrom N b3 (o + 4 + s) = walkFrom N b (o + 4 + s) := by
      apply walkFrom_frame_ge
      intro q hq
      rw [hagree3 q (by omega) (by omega)]
    have hwalk3 : walkFrom N b3 0 = walkFrom N b 0 := by
      rw [hw2, hw1, hstep2, htail3, hstep1]
    rw [records, records, hwalk3]
    apply List.map_congr_left
    intro q hq
    by_cases hq1 : q = o
    · subst hq1
      rw [hb3o]
      refine congrArg _ ?_
      rw [hboeta, ← he3sz]
      exact Entry.eta_free (by rw [he3def]; rfl)
    · have hq2 : q ≠ f := by
        rw [hw1, hstep1] at hq
        rcases List.mem_append.mp hq with hq | hq
        · have := hlt2 q hq
          omega
        · rcases List.mem_cons.mp hq with h1 | hq
          · omega
          · have := walkFrom_ge N b (o + 4 + s) q hq
            omega
      rw [hagree3 q hq1 hq2]
  · -- tail case: exact fit, no follower was written
    set n2 := roundUp n with hn2def
    set b2 := store b o (Entry.used n2) with hb2def
    have hbuf : (alloc N b n).buf = b2 := by rw [heq]
    have hb2o : b2 o = Entry.used n2 := by rw [hb2def, store_same]
    have hvb2 : Valid N b2 := store_size_eq_valid hv (by simp [Entry.used]; omega)
    have hwalk2 : walkFrom N b2 0 = walkFrom N b 0 :=
      store_size_eq_walk N b o (Entry.used n2) (by simp [Entry.used]; omega) 0
    have howalk2 : o ∈ walkFrom N b2 0 := by rw [hwalk2]; exact howalk
    have hfind := find?_entries_self hvb2 howalk2
      (by rw [hb2o]; simpa [Entry.used] using hn)
    have hst2 : ¬(b2 o).state = State.free := by
      rw [hb2o]; simp [Entry.used]
    have hfe : followingEntry N b2 o = none := by
      apply followingEntry_none_iff.mpr
      rw [hb2o]
      simp [Entry.used]
      omega
    have hfreeeq := free_nomerge_eq hfind hst2
      (by intro g hg; rw [hfe] at hg; cases hg)
    set b3 := store b2 o (Entry.free ((b2 o).size)) with hb3def
    have hres3 : (free N b2 (o + 4)).result = none := by rw [hfreeeq]
    have hbuf3 : (free N b2 (o + 4)).buf = b3 := by rw [hfreeeq]
    rw [hbuf]
    refine ⟨hres3, ?_⟩
    rw [hbuf3]
    have hb3o : b3 o = Entry.free n2 := by
      rw [hb3def, store_same, hb2o]
      rfl
    have hwalk3 : walkFrom N b3 0 = walkFrom N b 0 := by
      rw [store_size_eq_walk N b2 o (Entry.free ((b2 o).size))
        (by simp [Entry.free]) 0, hwalk2]
    rw [records, records, hwalk3]
    apply List.map_congr_left
    intro q hq
    by_cases hq1 : q = o
    · subst hq1
      rw [hb3o]
      refine congrArg _ ?_
      rw [hboeta, hsz]
    · rw [hb3def, store_other _ _ _ hq1, hb2def, store_other _ _ _ hq1]

theorem roundUp_pos {n : Nat} (h : 1 ≤ n) : 4 ≤ roundUp n := by
  simp only [roundUp]
  omega

/-- Merging every run of adjacent `Free` records of a record list into
a single `Free` record (absorbing the interior headers), the
"merged on both sides" view used to compare buffer states. -/
def mergeFrees : List Entry → List Entry
  | [] => []
  | e :: es =>
    match mergeFrees es with
    | [] => [e]
    | f :: fs =>
      if e.state = State.free ∧ f.state = State.free then
        Entry.free (e.size + 4 + f.size) :: fs
      else
        e :: f :: fs

/-- Under the invariant, searching `entries()` and searching the full
record list give the same result: the only possibly skipped record has
size 0, whose empty payload can never contain the pointer. -/
theorem find?_walk_eq_entries {N : Nat} {b : Buf} (hv : Valid N b) (ptr : Nat) :
    (entries N b).find? (freePred b ptr) =
      (walkFrom N b 0).find? (freePred b ptr) := by
  rw [entries, entriesFrom_eq_filter]
  apply find?_filter_eq
  intro q hq hpred
  have hqend := hv.ends q hq
  simp only [freePred, Bool.and_eq_true, decide_eq_true_eq] at hpred
  simp only [decide_eq_true_eq]
  omega


/-! ## Concrete states used by the witnesses and counterexamples -/

/-- Arbitrary junk contents for the uninitialized buffer bytes. -/
def junk0 : Buf := fun _ => Entry.free 0

/-- A fresh 32-byte allocator buffer. -/
def fresh32 : Buf := bufNew 32 junk0

/-- A fresh 8-byte allocator buffer (the minimal capacity). -/
def fresh8 : Buf := bufNew 8 junk0

/-- The buffer after `alloc(24)` on a fresh 32-byte allocator: records
`[Used 24 at offset 0, Free 0 at offset 28]`, the second one invisible
to `entries()`. -/
def bstar : Buf := (alloc 32 fresh32 24).buf

theorem fresh32_records : records 32 fresh32 = [(0, Entry.free 28)] := by
  norm_num [records, walkFrom_step, walkFrom_stop, fresh32, bufNew, store,
    junk0, Entry.free]

theorem fresh32_entries : entries 32 fresh32 = [0] := by
  norm_num [entries, entriesFrom_step, entriesFrom_stop, fresh32, bufNew,
    store, junk0, Entry.free]

theorem alloc24_out : (alloc 32 fresh32 24).out = AllocOut.allocated 4 24 := by
  norm_num [alloc, allocChoice, allocCandidates, entries, entriesFrom_step,
    entriesFrom_stop, fresh32, bufNew, store, junk0, Entry.free, Entry.used,
    minByKey, followingEntry, roundUp]

theorem bstar_records :
    records 32 bstar = [(0, Entry.used 24), (28, Entry.free 0)] := by
  norm_num [bstar, records, walkFrom_step, walkFrom_stop, alloc, allocChoice,
    allocCandidates, entries, entriesFrom_step, entriesFrom_stop, fresh32,
    bufNew, store, junk0, Entry.free, Entry.used, minByKey, followingEntry,
    roundUp]

theorem bstar_entries : entries 32 bstar = [0] := by
  norm_num [bstar, alloc, allocChoice, allocCandidates, entries,
    entriesFrom_step, entriesFrom_stop, fresh32, bufNew, store, junk0,
    Entry.free, Entry.used, minByKey, followingEntry, roundUp]

theorem bstar_alloc0_choice : allocChoice 32 bstar 0 = none := by
  norm_num [bstar, alloc, allocChoice, allocCandidates, entries,
    entriesFrom_step, entriesFrom_stop, fresh32, bufNew, store, junk0,
    Entry.free, Entry.used, minByKey, followingEntry, roundUp]


theorem bstar_alloc0_failed : (alloc 32 bstar 0).out = AllocOut.failed := by
  have h : roundUp 0 = 0 := rfl
  rw [alloc_none_eq (h ▸ bstar_alloc0_choice)]

theorem bstar_alloc0_buf : (alloc 32 bstar 0).buf = bstar := by
  have h : roundUp 0 = 0 := rfl
  rw [alloc_none_eq (h ▸ bstar_alloc0_choice)]

theorem alloc8_out : (alloc 32 fresh32 8).out = AllocOut.allocated 4 8 := by
  norm_num [alloc, allocChoice, allocCandidates, entries, entriesFrom_step,
    entriesFrom_stop, fresh32, bufNew, store, junk0, Entry.free, Entry.used,
    minByKey, followingEntry, roundUp]

theorem alloc8_writes : (alloc 32 fresh32 8).writes = [0, 12] := by
  norm_num [alloc, allocChoice, allocCandidates, entries, entriesFrom_step,
    entriesFrom_stop, fresh32, bufNew, store, junk0, Entry.free, Entry.used,
    minByKey, followingEntry, roundUp]

theorem alloc8_buf0 : (alloc 32 fresh32 8).buf 0 = Entry.used 8 := by
  norm_num [alloc, allocChoice, allocCandidates, entries, entriesFrom_step,
    entriesFrom_stop, fresh32, bufNew, store, junk0, Entry.free, Entry.used,
    minByKey, followingEntry, roundUp]

theorem fresh8_alloc0_out : (alloc 8 fresh8 0).out = AllocOut.allocated 4 0 := by
  norm_num [alloc, allocChoice, allocCandidates, entries, entriesFrom_step,
    entriesFrom_stop, fresh8, bufNew, store, junk0, Entry.free, Entry.used,
    minByKey, followingEntry, roundUp]

theorem fresh8_alloc0_free :
    (free 8 (alloc 8 fresh8 0).buf 4).result =
      some FreeError.allocationNotFound := by
  norm_num [free, freePred, alloc, allocChoice, allocCandidates, entries,
    entriesFrom_step, entriesFrom_stop, fresh8, bufNew, store, junk0,
    Entry.free, Entry.used, minByKey, followingEntry, roundUp]

theorem fresh32_sum : recordsSum 32 fresh32 = 32 := by
  norm_num [recordsSum, walkFrom_step, walkFrom_stop, fresh32, bufNew, store,
    junk0, Entry.free]

theorem fresh32_at0 : fresh32 0 = Entry.free 28 := rfl

theorem fresh32_free4 :
    (free 32 fresh32 4).result = some FreeError.doubleFreeDetected := by
  norm_num [free, freePred, entries, entriesFrom_step, entriesFrom_stop,
    fresh32, bufNew, store, junk0, Entry.free]

theorem fresh32_walk_find4 :
    (walkFrom 32 fresh32 0).find? (freePred fresh32 4) = some 0 := by
  norm_num [walkFrom_step, walkFrom_stop, fresh32, bufNew, store, junk0,
    Entry.free, List.find?, freePred]

theorem state_used_ne_free : ¬State.used = State.free := by decide

theorem alloc8_free4_result :
    (free 32 (alloc 32 fresh32 8).buf 4).result = none := by
  norm_num [free, freePred, alloc, allocChoice, allocCandidates, entries,
    entriesFrom_step, entriesFrom_stop, fresh32, bufNew, store, junk0,
    Entry.free, Entry.used, minByKey, followingEntry, roundUp,
    state_used_ne_free]

theorem alloc5_out : (alloc 32 fresh32 5).out = AllocOut.allocated 4 8 := by
  norm_num [alloc, allocChoice, allocCandidates, entries, entriesFrom_step,
    entriesFrom_stop, fresh32, bufNew, store, junk0, Entry.free, Entry.used,
    minByKey, followingEntry, roundUp]

theorem fresh32_choice4 :
    allocChoice 32 fresh32 (roundUp 4) = some (0, Entry.free 28) := by
  norm_num [allocChoice, allocCandidates, entries, entriesFrom_step,
    entriesFrom_stop, fresh32, bufNew, store, junk0, Entry.free, Entry.used,
    minByKey, roundUp]

theorem reachable_fresh32 : Reachable 32 fresh32 :=
  Reachable.new junk0 (by norm_num) (by norm_num)

theorem reachable_bstar : Reachable 32 bstar :=
  Reachable.allocStep fresh32 24 4 24 reachable_fresh32 alloc24_out
/-! ## The claims -/

/-- Claim C2 (amended): for every buffer whose bytes form a valid
concatenation of records summing to `N`, the sequence produced by
`entries()` lists, in strictly increasing offset order, the offset of
every record whose header starts strictly below `N - 4`; a last record
of size `0` whose header lies at offset `N - 4` is the only record it
skips.  (The claim as frozen asserts that such a record is included;
the counterexample refutes that.) -/
theorem claimC2 {N : Nat} {b : Buf} (hv : Valid N b) :
    entries N b = (walkFrom N b 0).filter (fun p => decide (p + 4 < N)) ∧
    List.Pairwise (· < ·) (walkFrom N b 0) ∧
    ∀ p ∈ walkFrom N b 0, p ∉ entries N b → p = N - 4 ∧ (b p).size = 0 := by
  refine ⟨entriesFrom_eq_filter N b 0, walkFrom_pairwise N b 0, ?_⟩
  intro p hp hne
  have hb := walkFrom_mem_bound N b 0 p hp
  have hend := hv.ends p hp
  have h4 : ¬p + 4 < N := by
    intro hlt
    exact hne (mem_entries_iff.mpr ⟨hp, hlt⟩)
  constructor <;> omega

/-- Witness for C2 at the reachable state `bstar` (records
`[Used 24 at 0, Free 0 at 28]` in a 32-byte buffer). -/
theorem claimC2_witness :
    Valid 32 bstar ∧
    (entries 32 bstar =
        (walkFrom 32 bstar 0).filter (fun p => decide (p + 4 < 32)) ∧
      List.Pairwise (· < ·) (walkFrom 32 bstar 0) ∧
      ∀ p ∈ walkFrom 32 bstar 0, p ∉ entries 32 bstar →
        p = 32 - 4 ∧ (bstar p).size = 0) := by
  have hv : Valid 32 bstar := reachable_valid reachable_bstar
  exact ⟨hv, claimC2 hv⟩

/-- Counterexample for C2 as frozen: the reachable buffer `bstar`
(created exactly as the claim describes, by `alloc` splitting a free
block that exceeds the rounded request by exactly 4) has a size-0
record at offset `28 = N - 4`, but `entries()` does not visit it. -/
theorem claimC2_counterexample :
    Reachable 32 bstar ∧
    records 32 bstar = [(0, Entry.used 24), (28, Entry.free 0)] ∧
    entries 32 bstar = [0] ∧ 28 ∉ entries 32 bstar := by
  refine ⟨reachable_bstar, bstar_records, bstar_entries, ?_⟩
  rw [bstar_entries]
  decide

/-- Claim C3 (confirmed): the record-sum invariant `Σ (4 + sᵢ) = N`
holds in every reachable state, and is preserved by every `alloc` that
completes (returning a block or `None`; the underflow panic on an
exact fit of a non-final record never returns) and by every `free`
(successful or erroring). -/
theorem claimC3 {N : Nat} {b : Buf} (h : Reachable N b) :
    recordsSum N b = N ∧
    (∀ n, (alloc N b n).out ≠ AllocOut.panicked →
      recordsSum N (alloc N b n).buf = N) ∧
    (∀ ptr, recordsSum N (free N b ptr).buf = N) := by
  have hv := reachable_valid h
  exact ⟨hv.hsum, fun n hn => (alloc_preserves_valid hv hn).hsum,
    fun ptr => (free_preserves_valid hv).hsum⟩

/-- Witness for C3 on a fresh 32-byte allocator. -/
theorem claimC3_witness :
    Reachable 32 fresh32 ∧ recordsSum 32 fresh32 = 32 ∧
    (∀ n, (alloc 32 fresh32 n).out ≠ AllocOut.panicked →
      recordsSum 32 (alloc 32 fresh32 n).buf = 32) ∧
    (∀ ptr, recordsSum 32 (free 32 fresh32 ptr).buf = 32) :=
  ⟨reachable_fresh32, claimC3 reachable_fresh32⟩

/-- Claim C10 (confirmed): whenever `alloc(n)` succeeds (without
panicking), the returned payload slice has length exactly `n` rounded
up to the next multiple of 4 — in particular at least `n` — and this
holds regardless of which free record was chosen. -/
theorem claimC10 {N n p l : Nat} {b : Buf} (hv : Valid N b)
    (h : (alloc N b n).out = AllocOut.allocated p l) :
    l = roundUp n ∧ n ≤ l := by
  obtain ⟨o, e, -, -, rfl, -⟩ := alloc_allocated_cases hv h
  exact ⟨rfl, le_roundUp n⟩

/-- Witness for C10: `alloc(5)` on a fresh 32-byte buffer returns a
slice of length `8 = roundUp 5 ≥ 5`. -/
theorem claimC10_witness :
    Valid 32 fresh32 ∧ (alloc 32 fresh32 5).out = AllocOut.allocated 4 8 ∧
    8 = roundUp 5 ∧ 5 ≤ 8 := by
  have hv : Valid 32 fresh32 := reachable_valid reachable_fresh32
  exact ⟨hv, alloc5_out, claimC10 hv alloc5_out⟩

/-- Claim C1 (amended): in a successful `alloc`, the header of the
chosen record is always overwritten with `Used(n2)` for the rounded request
`n2` — also when the chosen record is the last one — and a follower
header `Free(s - n2 - 4)` is written precisely when `o + n2 + 4 < N`,
i.e. when the new used record leaves room for a header behind it.  For
calls that complete, no follower is written exactly when the chosen
record was the last record and its size equals `n2` (so there is no
tail waste to absorb).  (The claim as frozen asserts that a last chosen
record never gets a follower and absorbs its full size `s`; the
counterexample refutes both parts.) -/
theorem claimC1 {N n p l : Nat} {b : Buf} (hv : Valid N b)
    (h : (alloc N b n).out = AllocOut.allocated p l) :
    ∃ o, p = o + 4 ∧ o ∈ entries N b ∧ (b o).state = State.free ∧
      (alloc N b n).buf o = Entry.used (roundUp n) ∧
      (o + roundUp n + 4 < N →
        (alloc N b n).writes = [o, o + roundUp n + 4] ∧
        (alloc N b n).buf (o + roundUp n + 4) =
          Entry.free ((b o).size - roundUp n - 4)) ∧
      (¬o + roundUp n + 4 < N →
        (alloc N b n).writes = [o] ∧ (b o).size = roundUp n ∧
        o + 4 + (b o).size = N) := by
  obtain ⟨o, e, hch, rfl, rfl, ho, hst, hcase⟩ := alloc_allocated_cases hv h
  obtain ⟨howalk, ho4⟩ := mem_entries_iff.mp ho
  have hend := hv.ends o howalk
  rcases hcase with ⟨hsz, hroom, heq⟩ | ⟨hsz, hroom, heq⟩
  · refine ⟨o, rfl, ho, hst, ?_, ?_, ?_⟩
    · rw [heq]
      show store (store b o (Entry.used (roundUp n))) (o + roundUp n + 4)
        (Entry.free ((b o).size - roundUp n - 4)) o = Entry.used (roundUp n)
      rw [store_other _ _ _ (by omega), store_same]
    · intro _
      rw [heq]
      exact ⟨rfl, store_same _ _ _⟩
    · intro hc
      exact absurd hroom hc
  · refine ⟨o, rfl, ho, hst, ?_, ?_, ?_⟩
    · rw [heq]
      exact store_same _ _ _
    · intro hc
      exact absurd hc hroom
    · intro _
      rw [heq]
      exact ⟨rfl, hsz, by omega⟩

/-- Witness for C1: `alloc(8)` on a fresh 32-byte buffer. -/
theorem claimC1_witness :
    Valid 32 fresh32 ∧ (alloc 32 fresh32 8).out = AllocOut.allocated 4 8 ∧
    (∃ o, 4 = o + 4 ∧ o ∈ entries 32 fresh32 ∧
      (fresh32 o).state = State.free ∧
      (alloc 32 fresh32 8).buf o = Entry.used (roundUp 8) ∧
      (o + roundUp 8 + 4 < 32 →
        (alloc 32 fresh32 8).writes = [o, o + roundUp 8 + 4] ∧
        (alloc 32 fresh32 8).buf (o + roundUp 8 + 4) =
          Entry.free ((fresh32 o).size - roundUp 8 - 4)) ∧
      (¬o + roundUp 8 + 4 < 32 →
        (alloc 32 fresh32 8).writes = [o] ∧ (fresh32 o).size = roundUp 8 ∧
        o + 4 + (fresh32 o).size = 32)) := by
  have hv : Valid 32 fresh32 := reachable_valid reachable_fresh32
  exact ⟨hv, alloc8_out, claimC1 hv alloc8_out⟩

/-- Counterexample for C1 as frozen: on a fresh 32-byte buffer the
best-fit record for `alloc(8)` is the single record `Free(28)` at
offset 0, which is the last record in the buffer; the claim says no
follower header is written and the header becomes `Used(28)`, but the
code writes the follower `Free(16)` at offset 12 and the header
`Used(8)`. -/
theorem claimC1_counterexample :
    Reachable 32 fresh32 ∧
    records 32 fresh32 = [(0, Entry.free 28)] ∧
    (alloc 32 fresh32 8).out = AllocOut.allocated 4 8 ∧
    (alloc 32 fresh32 8).writes = [0, 12] ∧
    (alloc 32 fresh32 8).buf 0 = Entry.used 8 ∧
    Entry.used 8 ≠ Entry.used 28 ∧ ([0, 12] : List Nat) ≠ [0] :=
  ⟨reachable_fresh32, fresh32_records, alloc8_out, alloc8_writes,
    alloc8_buf0, by decide, by decide⟩

theorem free_success_result {N ptr o : Nat} {b : Buf}
    (hfind : (entries N b).find? (freePred b ptr) = some o)
    (hst : ¬(b o).state = State.free) : (free N b ptr).result = none := by
  cases hfe : followingEntry N b o with
  | none =>
    rw [free_nomerge_eq hfind hst (by intro g hg; rw [hfe] at hg; cases hg)]
  | some f =>
    by_cases hffree : (b f).state = State.free
    · rw [free_merge_eq hfind hst hfe hffree]
    · rw [free_nomerge_eq hfind hst
        (by intro g hg; rw [hfe] at hg; cases hg; exact hffree)]

theorem free_error_buf {N ptr : Nat} {b : Buf}
    (h : (free N b ptr).result ≠ none) : (free N b ptr).buf = b := by
  cases hfind : (entries N b).find? (freePred b ptr) with
  | none => rw [free_notFound_eq hfind]
  | some o =>
    by_cases hst : (b o).state = State.free
    · rw [free_double_eq hfind hst]
    · exact absurd (free_success_result hfind hst) h

/-- Claim C5 (confirmed): `free(ptr)` returns `AllocationNotFound`
exactly when `ptr` falls inside the payload range of no record, returns
`DoubleFreeDetected` exactly when the first record whose payload
contains `ptr` is `Free`, and in both error cases the buffer is
unchanged. -/
theorem claimC5 {N : Nat} {b : Buf} (hv : Valid N b) (ptr : Nat) :
    ((free N b ptr).result = some FreeError.allocationNotFound ↔
      ∀ p ∈ walkFrom N b 0, ¬(p + 4 ≤ ptr ∧ ptr < p + 4 + (b p).size)) ∧
    ((free N b ptr).result = some FreeError.doubleFreeDetected ↔
      ∃ o, (walkFrom N b 0).find? (freePred b ptr) = some o ∧
        (b o).state = State.free) ∧
    ((free N b ptr).result ≠ none → (free N b ptr).buf = b) := by
  have hbridge := find?_walk_eq_entries hv ptr
  cases hfind : (entries N b).find? (freePred b ptr) with
  | none =>
    have hwnone : (walkFrom N b 0).find? (freePred b ptr) = none := by
      rw [← hbridge]; exact hfind
    rw [free_notFound_eq hfind]
    refine ⟨?_, ?_, fun _ => rfl⟩
    · simp only [true_iff]
      intro p hp hcontra
      have hnp := List.find?_eq_none.mp hwnone p hp
      simp only [freePred, Bool.and_eq_true, decide_eq_true_eq] at hnp
      exact hnp ⟨hcontra.1, hcontra.2⟩
    · simp only [Option.some.injEq]
      constructor
      · intro hcontra
        cases hcontra
      · rintro ⟨o, hno, -⟩
        rw [hwnone] at hno
        cases hno
  | some o =>
    have hwsome : (walkFrom N b 0).find? (freePred b ptr) = some o := by
      rw [← hbridge]; exact hfind
    have hpred := List.find?_some hfind
    have homem := List.mem_of_find?_eq_some hwsome
    simp only [freePred, Bool.and_eq_true, decide_eq_true_eq] at hpred
    have hnotall : ¬∀ p ∈ walkFrom N b 0,
        ¬(p + 4 ≤ ptr ∧ ptr < p + 4 + (b p).size) := by
      intro hall
      exact hall o homem ⟨hpred.1, hpred.2⟩
    by_cases hst : (b o).state = State.free
    · rw [free_double_eq hfind hst]
      refine ⟨?_, ?_, fun _ => rfl⟩
      · simp only [Option.some.injEq]
        constructor
        · intro hcontra
          cases hcontra
        · intro hall
          exact absurd hall hnotall
      · simp only [true_iff]
        exact ⟨o, hwsome, hst⟩
    · have hres := free_success_result hfind hst
      rw [hres]
      refine ⟨?_, ?_, fun hne => absurd rfl hne⟩
      · constructor
        · intro hcontra
          cases hcontra
        · intro hall
          exact absurd hall hnotall
      · constructor
        · intro hcontra
          cases hcontra
        · rintro ⟨o2, ho2, hfree2⟩
          rw [hwsome] at ho2
          cases ho2
          exact absurd hfree2 hst

/-- Witness for C5: on a fresh 32-byte buffer, `free(4)` points into
the payload of the single `Free(28)` record and reports a double
free. -/
theorem claimC5_witness :
    Valid 32 fresh32 ∧
    (free 32 fresh32 4).result = some FreeError.doubleFreeDetected ∧
    (∃ o, (walkFrom 32 fresh32 0).find? (freePred fresh32 4) = some o ∧
      (fresh32 o).state = State.free) := by
  have hv : Valid 32 fresh32 := reachable_valid reachable_fresh32
  exact ⟨hv, fresh32_free4, ((claimC5 hv 4).2.1).mp fresh32_free4⟩

/-- Claim C4 (amended): for every reachable state and every `n ≥ 1`
for which `alloc(n)` succeeds, immediately freeing the returned
pointer succeeds, and the resulting record list — in particular also
after merging adjacent free records on both sides — is identical to
the record list before the `alloc`.  (The claim as frozen includes
`n = 0`; the counterexample shows that freeing the zero-length slice
returned by `alloc(0)` fails with `AllocationNotFound`.) -/
theorem claimC4 {N n p l : Nat} {b : Buf} (h : Reachable N b) (hn : 1 ≤ n)
    (ha : (alloc N b n).out = AllocOut.allocated p l) :
    (free N (alloc N b n).buf p).result = none ∧
    records N (free N (alloc N b n).buf p).buf = records N b ∧
    mergeFrees ((records N (free N (alloc N b n).buf p).buf).map Prod.snd) =
      mergeFrees ((records N b).map Prod.snd) := by
  have hv := reachable_valid h
  obtain ⟨h1, h2⟩ := alloc_free_roundtrip hv (roundUp_pos hn) ha
  exact ⟨h1, h2, by rw [h2]⟩

/-- Witness for C4: `alloc(8)` then `free` of the returned pointer on
a fresh 32-byte buffer. -/
theorem claimC4_witness :
    Reachable 32 fresh32 ∧ 1 ≤ 8 ∧
    (alloc 32 fresh32 8).out = AllocOut.allocated 4 8 ∧
    ((free 32 (alloc 32 fresh32 8).buf 4).result = none ∧
      records 32 (free 32 (alloc 32 fresh32 8).buf 4).buf =
        records 32 fresh32 ∧
      mergeFrees ((records 32 (free 32 (alloc 32 fresh32 8).buf 4).buf).map
          Prod.snd) =
        mergeFrees ((records 32 fresh32).map Prod.snd)) :=
  ⟨reachable_fresh32, by decide, alloc8_out,
    claimC4 reachable_fresh32 (by decide) alloc8_out⟩

/-- Counterexample for C4 as frozen: on a fresh 8-byte buffer,
`alloc(0)` succeeds and returns the zero-length slice at offset 4, but
`free` of that pointer reports `AllocationNotFound` instead of
succeeding: a zero-length payload contains no pointer at all. -/
theorem claimC4_counterexample :
    Reachable 8 fresh8 ∧ (alloc 8 fresh8 0).out = AllocOut.allocated 4 0 ∧
    (free 8 (alloc 8 fresh8 0).buf 4).result =
      some FreeError.allocationNotFound ∧
    some FreeError.allocationNotFound ≠ (none : Option FreeError) :=
  ⟨Reachable.new junk0 (by norm_num) (by norm_num), fresh8_alloc0_out,
    fresh8_alloc0_free, by decide⟩

/-- Claim C6 (confirmed): a successful `free` overwrites the selected
header of the selected record with `Free(size + Δ)` where `Δ = 4 + following.size`
if the immediately following record exists and is `Free`, and `Δ = 0`
otherwise; no other record is merged — the records before the selected
one (in particular a `Free` left neighbour) and the records after the
absorbed follower are untouched, and at most one follower is
absorbed. -/
theorem claimC6 {N ptr : Nat} {b : Buf} (hv : Valid N b)
    (hok : (free N b ptr).result = none) :
    ∃ o, (walkFrom N b 0).find? (freePred b ptr) = some o ∧
      (b o).state = State.used ∧ (free N b ptr).writes = [o] ∧
      ∃ pre tail, records N b = pre ++ (o, b o) :: tail ∧
        ((∃ f tail2, followingEntry N b o = some f ∧
            (b f).state = State.free ∧ tail = (f, b f) :: tail2 ∧
            records N (free N b ptr).buf =
              pre ++ (o, Entry.free ((b o).size + (4 + (b f).size))) :: tail2) ∨
         ((∀ f, followingEntry N b o = some f → ¬(b f).state = State.free) ∧
            records N (free N b ptr).buf =
              pre ++ (o, Entry.free ((b o).size + 0)) :: tail)) := by
  cases hfind : (entries N b).find? (freePred b ptr) with
  | none =>
    rw [free_notFound_eq hfind] at hok
    cases hok
  | some o =>
    by_cases hst : (b o).state = State.free
    · rw [free_double_eq hfind hst] at hok
      cases hok
    · have hwsome : (walkFrom N b 0).find? (freePred b ptr) = some o := by
        rw [← find?_walk_eq_entries hv ptr]; exact hfind
      have hused : (b o).state = State.used := by
        cases hstate : (b o).state
        · exact absurd hstate hst
        · rfl
      have ho : o ∈ entries N b := List.mem_of_find?_eq_some hfind
      obtain ⟨howalk, ho4⟩ := mem_entries_iff.mp ho
      refine ⟨o, hwsome, hused, ?_⟩
      cases hfe : followingEntry N b o with
      | some f =>
        by_cases hffree : (b f).state = State.free
        · -- right-coalescing merge
          have heq := free_merge_eq hfind hst hfe hffree
          obtain ⟨pre, hwb, hwb3, hlt, -⟩ := free_merge_state hv ho hfe
          obtain ⟨hfeq, hflt⟩ := followingEntry_some_iff.mp hfe
          have hbuf : (free N b ptr).buf =
              store b o (Entry.free ((b o).size + ((b f).size + 4))) := by
            rw [heq]
          refine ⟨by rw [heq], pre.map (fun q => (q, b q)),
            (f, b f) :: (walkFrom N b (f + 4 + (b f).size)).map
              (fun q => (q, b q)), ?_, ?_⟩
          · rw [records, hwb]
            simp [List.map_append]
          · refine Or.inl ⟨f, (walkFrom N b (f + 4 + (b f).size)).map
              (fun q => (q, b q)), rfl, hffree, rfl, ?_⟩
            rw [hbuf, records, hwb3]
            rw [List.map_append, List.map_cons]
            have hval : ∀ q ∈ walkFrom N b (f + 4 + (b f).size),
                (q, store b o (Entry.free ((b o).size + ((b f).size + 4))) q) =
                  (q, b q) := by
              intro q hq
              have := walkFrom_ge N b (f + 4 + (b f).size) q hq
              rw [store_other _ _ _ (by omega)]
            have hpreval : ∀ q ∈ pre,
                (q, store b o (Entry.free ((b o).size + ((b f).size + 4))) q) =
                  (q, b q) := by
              intro q hq
              have := hlt q hq
              rw [store_other _ _ _ (by omega)]
            rw [List.map_congr_left hval, List.map_congr_left hpreval]
            rw [store_same]
            have harith : (b o).size + ((b f).size + 4) =
                (b o).size + (4 + (b f).size) := by omega
            rw [harith]
        · -- follower exists but is used: no merge
          have heq := free_nomerge_eq hfind hst
            (by intro g hg; rw [hfe] at hg; cases hg; exact hffree)
          have hbuf : (free N b ptr).buf = store b o (Entry.free ((b o).size)) := by
            rw [heq]
          obtain ⟨pre, hw1, hw2, hlt⟩ :=
            path_walk_split (store b o (Entry.free ((b o).size)))
              (path_of_mem_walkFrom N b 0 o howalk)
              (fun q hq => by rw [store_other _ _ _ (by omega)])
          have hstep1 : walkFrom N b o = o :: walkFrom N b (o + 4 + (b o).size) :=
            walkFrom_step b (by omega)
          have hstep2 : walkFrom N (store b o (Entry.free ((b o).size))) o =
              o :: walkFrom N (store b o (Entry.free ((b o).size)))
                (o + 4 + (b o).size) := by
            rw [walkFrom_step _ (by omega), store_same]
            simp [Entry.free]
          have htail : walkFrom N (store b o (Entry.free ((b o).size)))
              (o + 4 + (b o).size) = walkFrom N b (o + 4 + (b o).size) := by
            apply walkFrom_frame_ge
            intro q hq
            rw [store_other _ _ _ (by omega)]
          refine ⟨by rw [heq], pre.map (fun q => (q, b q)),
            (walkFrom N b (o + 4 + (b o).size)).map (fun q => (q, b q)), ?_, ?_⟩
          · rw [records, hw1, hstep1]
            simp [List.map_append]
          · refine Or.inr ⟨(by intro g hg; cases hg; exact hffree), ?_⟩
            rw [hbuf, records, hw2, hstep2, htail]
            rw [List.map_append, List.map_cons]
            have hval : ∀ q ∈ walkFrom N b (o + 4 + (b o).size),
                (q, store b o (Entry.free ((b o).size)) q) = (q, b q) := by
              intro q hq
              have := walkFrom_ge N b (o + 4 + (b o).size) q hq
              rw [store_other _ _ _ (by omega)]
            have hpreval : ∀ q ∈ pre,
                (q, store b o (Entry.free ((b o).size)) q) = (q, b q) := by
              intro q hq
              have := hlt q hq
              rw [store_other _ _ _ (by omega)]
            rw [List.map_congr_left hval, List.map_congr_left hpreval, store_same]
            have harith : (b o).size + 0 = (b o).size := by omega
            rw [harith]
      | none =>
        have heq := free_nomerge_eq hfind hst
          (by intro g hg; rw [hfe] at hg; cases hg)
        have hbuf : (free N b ptr).buf = store b o (Entry.free ((b o).size)) := by
          rw [heq]
        obtain ⟨pre, hw1, hw2, hlt⟩ :=
          path_walk_split (store b o (Entry.free ((b o).size)))
            (path_of_mem_walkFrom N b 0 o howalk)
            (fun q hq => by rw [store_other _ _ _ (by omega)])
        have hstep1 : walkFrom N b o = o :: walkFrom N b (o + 4 + (b o).size) :=
          walkFrom_step b (by omega)
        have hstep2 : walkFrom N (store b o (Entry.free ((b o).size))) o =
            o :: walkFrom N (store b o (Entry.free ((b o).size)))
              (o + 4 + (b o).size) := by
          rw [walkFrom_step _ (by omega), store_same]
          simp [Entry.free]
        have htail : walkFrom N (store b o (Entry.free ((b o).size)))
            (o + 4 + (b o).size) = walkFrom N b (o + 4 + (b o).size) := by
          apply walkFrom_frame_ge
          intro q hq
          rw [store_other _ _ _ (by omega)]
        refine ⟨by rw [heq], pre.map (fun q => (q, b q)),
          (walkFrom N b (o + 4 + (b o).size)).map (fun q => (q, b q)), ?_, ?_⟩
        · rw [records, hw1, hstep1]
          simp [List.map_append]
        · refine Or.inr ⟨(by intro g hg; cases hg), ?_⟩
          rw [hbuf, records, hw2, hstep2, htail]
          rw [List.map_append, List.map_cons]
          have hval : ∀ q ∈ walkFrom N b (o + 4 + (b o).size),
              (q, store b o (Entry.free ((b o).size)) q) = (q, b q) := by
            intro q hq
            have := walkFrom_ge N b (o + 4 + (b o).size) q hq
            rw [store_other _ _ _ (by omega)]
          have hpreval : ∀ q ∈ pre,
              (q, store b o (Entry.free ((b o).size)) q) = (q, b q) := by
            intro q hq
            have := hlt q hq
            rw [store_other _ _ _ (by omega)]
          rw [List.map_congr_left hval, List.map_congr_left hpreval, store_same]
          have harith : (b o).size + 0 = (b o).size := by omega
          rw [harith]

/-- Witness for C6: freeing the block allocated by `alloc(8)` on a
fresh 32-byte buffer (its follower `Free(16)` is absorbed). -/
theorem claimC6_witness :
    Valid 32 (alloc 32 fresh32 8).buf ∧
    (free 32 (alloc 32 fresh32 8).buf 4).result = none ∧
    (∃ o, (walkFrom 32 (alloc 32 fresh32 8).buf 0).find?
        (freePred (alloc 32 fresh32 8).buf 4) = some o ∧
      ((alloc 32 fresh32 8).buf o).state = State.used ∧
      (free 32 (alloc 32 fresh32 8).buf 4).writes = [o] ∧
      ∃ pre tail, records 32 (alloc 32 fresh32 8).buf =
          pre ++ (o, (alloc 32 fresh32 8).buf o) :: tail ∧
        ((∃ f tail2, followingEntry 32 (alloc 32 fresh32 8).buf o = some f ∧
            ((alloc 32 fresh32 8).buf f).state = State.free ∧
            tail = (f, (alloc 32 fresh32 8).buf f) :: tail2 ∧
            records 32 (free 32 (alloc 32 fresh32 8).buf 4).buf =
              pre ++ (o, Entry.free (((alloc 32 fresh32 8).buf o).size +
                (4 + ((alloc 32 fresh32 8).buf f).size))) :: tail2) ∨
         ((∀ f, followingEntry 32 (alloc 32 fresh32 8).buf o = some f →
             ¬((alloc 32 fresh32 8).buf f).state = State.free) ∧
            records 32 (free 32 (alloc 32 fresh32 8).buf 4).buf =
              pre ++ (o, Entry.free (((alloc 32 fresh32 8).buf o).size + 0))
                :: tail))) := by
  have hv : Valid 32 (alloc 32 fresh32 8).buf :=
    alloc_preserves_valid (reachable_valid reachable_fresh32)
      (by rw [alloc8_out]; simp)
  exact ⟨hv, alloc8_free4_result, claimC6 hv alloc8_free4_result⟩

/-- Claim C7 (amended): `alloc(n)` selects, among the records visited
by the `entries()` scan with state `Free` and size at least the
rounded request `n2`, the first record of minimal size (the candidate
list is in strictly increasing offset order, so ties go to the lowest
offset); for `n ≥ 1` the visited candidates are exactly the qualifying
records of the whole buffer; and if no candidate exists `alloc`
returns none with the buffer unchanged.  (The claim as frozen
quantifies over all records also for `n = 0`; the counterexample shows
a trailing zero-size record that qualifies for `n = 0` but is never
considered.) -/
theorem claimC7 {N n : Nat} {b : Buf} (hv : Valid N b) :
    (∀ o e, allocChoice N b (roundUp n) = some (o, e) →
      ∃ l1 l2, allocCandidates N b (roundUp n) = l1 ++ (o, e) :: l2 ∧
        (∀ d ∈ l1, e.size < d.2.size) ∧ ∀ d ∈ l2, e.size ≤ d.2.size) ∧
    List.Pairwise (fun c d => c.1 < d.1) (allocCandidates N b (roundUp n)) ∧
    (1 ≤ n → allocCandidates N b (roundUp n) =
      ((records N b).filter (fun c => decide (c.2.state = State.free))).filter
        (fun c => decide (roundUp n ≤ c.2.size))) ∧
    (allocChoice N b (roundUp n) = none →
      allocCandidates N b (roundUp n) = [] ∧
      alloc N b n = ⟨AllocOut.failed, b, entries N b, []⟩) := by
  refine ⟨?_, ?_, ?_, ?_⟩
  · intro o e h
    exact minByKey_spec h
  · have hpw : List.Pairwise (· < ·) (entries N b) := by
      rw [entries, entriesFrom_eq_filter]
      exact (walkFrom_pairwise N b 0).filter _
    unfold allocCandidates
    refine List.Pairwise.filter _ (List.Pairwise.filter _ ?_)
    exact hpw.map _ (fun a c h => h)
  · intro hn
    have h4 : 4 ≤ roundUp n := roundUp_pos hn
    unfold allocCandidates records
    rw [entries, entriesFrom_eq_filter]
    rw [List.filter_filter, List.filter_filter]
    apply filter_map_filter_eq
    intro x hx hpr
    simp only [Bool.and_eq_true, decide_eq_true_eq] at hpr
    have hend := hv.ends x hx
    simp only [decide_eq_true_eq]
    omega
  · intro h
    have hnil : allocCandidates N b (roundUp n) = [] := minByKey_eq_none.mp h
    exact ⟨hnil, alloc_none_eq h⟩

/-- Witness for C7 at a fresh 32-byte buffer with `n = 4` (the single
candidate `(0, Free 28)` is chosen). -/
theorem claimC7_witness :
    Valid 32 fresh32 ∧
    allocChoice 32 fresh32 (roundUp 4) = some (0, Entry.free 28) ∧
    ((∀ o e, allocChoice 32 fresh32 (roundUp 4) = some (o, e) →
      ∃ l1 l2, allocCandidates 32 fresh32 (roundUp 4) = l1 ++ (o, e) :: l2 ∧
        (∀ d ∈ l1, e.size < d.2.size) ∧ ∀ d ∈ l2, e.size ≤ d.2.size) ∧
    List.Pairwise (fun c d => c.1 < d.1)
      (allocCandidates 32 fresh32 (roundUp 4)) ∧
    (1 ≤ 4 → allocCandidates 32 fresh32 (roundUp 4) =
      ((records 32 fresh32).filter
          (fun c => decide (c.2.state = State.free))).filter
        (fun c => decide (roundUp 4 ≤ c.2.size))) ∧
    (allocChoice 32 fresh32 (roundUp 4) = none →
      allocCandidates 32 fresh32 (roundUp 4) = [] ∧
      alloc 32 fresh32 4 =
        ⟨AllocOut.failed, fresh32, entries 32 fresh32, []⟩)) := by
  have hv : Valid 32 fresh32 := reachable_valid reachable_fresh32
  exact ⟨hv, fresh32_choice4, claimC7 hv⟩

/-- Counterexample for C7 as frozen: in the reachable state `bstar`
the record `(28, Free 0)` is a record with state `Free` and size
`≥ roundUp 0 = 0`, yet `alloc(0)` selects nothing and returns none
with the buffer unchanged — the trailing zero-size record at `N - 4`
is invisible to the scan. -/
theorem claimC7_counterexample :
    Reachable 32 bstar ∧ (28, Entry.free 0) ∈ records 32 bstar ∧
    (Entry.free 0).state = State.free ∧ roundUp 0 ≤ (Entry.free 0).size ∧
    (alloc 32 bstar 0).out = AllocOut.failed ∧
    (alloc 32 bstar 0).buf = bstar :=
  ⟨reachable_bstar, by rw [bstar_records]; decide, by decide, by decide,
    bstar_alloc0_failed, bstar_alloc0_buf⟩

/-- Claim C8 (amended): for every reachable state in which the
`entries()` scan visits at least one `Free` record and visits no
`Free` record of size 0, `alloc(0)` succeeds and returns a zero-length
slice at offset `o + 4` for a visited record offset `o`, and the
buffer invariants still hold afterwards.  (The claim as frozen only
requires some `Free` record to exist; the counterexample shows a
reachable state with a `Free` record — the trailing zero-size one —
where `alloc(0)` returns none.) -/
theorem claimC8 {N : Nat} {b : Buf} (h : Reachable N b)
    (hfree : ∃ o ∈ entries N b, (b o).state = State.free)
    (hnz : ∀ o ∈ entries N b, (b o).state = State.free → (b o).size ≠ 0) :
    ∃ o, o ∈ entries N b ∧
      (alloc N b 0).out = AllocOut.allocated (o + 4) 0 ∧
      Valid N (alloc N b 0).buf := by
  have hv := reachable_valid h
  have hr0 : roundUp 0 = 0 := rfl
  obtain ⟨o0, ho0, hfree0⟩ := hfree
  have hcand : (o0, b o0) ∈ allocCandidates N b (roundUp 0) :=
    allocCandidates_intro ho0 hfree0 (by omega)
  cases hch : allocChoice N b (roundUp 0) with
  | none =>
    exfalso
    unfold allocChoice at hch
    rw [minByKey_eq_none.mp hch] at hcand
    cases hcand
  | some c =>
    obtain ⟨o, e⟩ := c
    obtain ⟨ho, -, hst, -⟩ := alloc_choice_facts hch
    obtain ⟨howalk, ho4⟩ := mem_entries_iff.mp ho
    have hszge : 4 ≤ (b o).size := by
      have h1 := hnz o ho hst
      have h2 := hv.halign o howalk
      omega
    have hroom : o + roundUp 0 + 4 < N := by rw [hr0]; omega
    have heq := alloc_split_eq hch hroom (by rw [hr0]; omega)
    refine ⟨o, ho, ?_, ?_⟩
    · rw [heq]
      rfl
    · apply alloc_preserves_valid hv
      rw [heq]
      simp

/-- Witness for C8: a fresh 32-byte buffer visits the single record
`Free(28)`, and `alloc(0)` returns the empty slice at offset 4. -/
theorem claimC8_witness :
    Reachable 32 fresh32 ∧
    (∃ o ∈ entries 32 fresh32, (fresh32 o).state = State.free) ∧
    (∀ o ∈ entries 32 fresh32, (fresh32 o).state = State.free →
      (fresh32 o).size ≠ 0) ∧
    (∃ o, o ∈ entries 32 fresh32 ∧
      (alloc 32 fresh32 0).out = AllocOut.allocated (o + 4) 0 ∧
      Valid 32 (alloc 32 fresh32 0).buf) := by
  have hfree : ∃ o ∈ entries 32 fresh32, (fresh32 o).state = State.free := by
    refine ⟨0, ?_, by rw [fresh32_at0]; rfl⟩
    rw [fresh32_entries]
    decide
  have hnz : ∀ o ∈ entries 32 fresh32, (fresh32 o).state = State.free →
      (fresh32 o).size ≠ 0 := by
    intro o ho
    rw [fresh32_entries] at ho
    simp at ho
    subst ho
    rw [fresh32_at0]
    intro _
    decide
  exact ⟨reachable_fresh32, hfree, hnz,
    claimC8 reachable_fresh32 hfree hnz⟩

/-- Counterexample for C8 as frozen: the reachable state `bstar`
contains the `Free` record `(28, Free 0)`, yet `alloc(0)` fails. -/
theorem claimC8_counterexample :
    Reachable 32 bstar ∧ (∃ r ∈ records 32 bstar, r.2.state = State.free) ∧
    (alloc 32 bstar 0).out = AllocOut.failed ∧
    ∀ p l, (alloc 32 bstar 0).out ≠ AllocOut.allocated p l := by
  refine ⟨reachable_bstar,
    ⟨(28, Entry.free 0), by rw [bstar_records]; decide, by decide⟩,
    bstar_alloc0_failed, ?_⟩
  intro p l h
  rw [bstar_alloc0_failed] at h
  cases h

/-- Claim C9 (confirmed): neither `alloc` nor `free` reads or writes
any byte in the payload of a record that is `Used` at the start of the
call (the traces cover every buffer access, each spanning the 4 bytes
of a header), and the outcome and writes of each call depend only on
the cells in its read trace, hence never on the contents of those
payloads.  The only header either call overwrites that belongs to a
pre-state record is, for `free`, the header of the record being
freed. -/
theorem claimC9 {N : Nat} {b : Buf} (hv : Valid N b) :
    (∀ n p, p ∈ (alloc N b n).reads ++ (alloc N b n).writes →
      ∀ a, p ≤ a → a < p + 4 → ¬inUsedPayload N b a) ∧
    (∀ ptr p, p ∈ (free N b ptr).reads ++ (free N b ptr).writes →
      ∀ a, p ≤ a → a < p + 4 → ¬inUsedPayload N b a) ∧
    (∀ n b2, (∀ p ∈ (alloc N b n).reads, b2 p = b p) →
      (alloc N b2 n).out = (alloc N b n).out ∧
      (alloc N b2 n).writes = (alloc N b n).writes) ∧
    (∀ ptr b2, (∀ p ∈ (free N b ptr).reads, b2 p = b p) →
      (free N b2 ptr).result = (free N b ptr).result ∧
      (free N b2 ptr).writes = (free N b ptr).writes) :=
  ⟨fun _ p hp => alloc_accesses_not_used_payload hv p hp,
    fun _ p hp => free_accesses_not_used_payload hv p hp,
    fun _ b2 h => alloc_reads_det b2 h,
    fun _ b2 h => free_reads_det b2 h⟩

/-- Witness for C9 on a fresh 32-byte buffer. -/
theorem claimC9_witness :
    Valid 32 fresh32 ∧
    ((∀ n p, p ∈ (alloc 32 fresh32 n).reads ++ (alloc 32 fresh32 n).writes →
      ∀ a, p ≤ a → a < p + 4 → ¬inUsedPayload 32 fresh32 a) ∧
    (∀ ptr p, p ∈ (free 32 fresh32 ptr).reads ++ (free 32 fresh32 ptr).writes →
      ∀ a, p ≤ a → a < p + 4 → ¬inUsedPayload 32 fresh32 a) ∧
    (∀ n b2, (∀ p ∈ (alloc 32 fresh32 n).reads, b2 p = fresh32 p) →
      (alloc 32 b2 n).out = (alloc 32 fresh32 n).out ∧
      (alloc 32 b2 n).writes = (alloc 32 fresh32 n).writes) ∧
    (∀ ptr b2, (∀ p ∈ (free 32 fresh32 ptr).reads, b2 p = fresh32 p) →
      (free 32 b2 ptr).result = (free 32 fresh32 ptr).result ∧
      (free 32 b2 ptr).writes = (free 32 fresh32 ptr).writes)) := by
  have hv : Valid 32 fresh32 := reachable_valid reachable_fresh32
  exact ⟨hv, claimC9 hv⟩

end Emballoc
